import Mathlib

/-!
Shallow embedding of the `textreader` repository: a buffered,
position-tracking UTF-8 reader over a byte stream.

The repository holds several historical revisions of the reader and of
its `position` package; per the specification the most feature-complete
revision is the target behavior.  That revision is the `TextReader`
with the window-translating `Seek` and the tolerant `ReadRune`
(`utf8.DecodeRune` on the buffered window, no error for an invalid
sequence), paired with the `position` package whose `Scan` decodes
UTF-8 (parallel `runesPerLine` / `bytesPerLine` slices) and whose
`Rewind` takes a byte count and a rune count.  Those are the functions
embedded here, one Lean definition per Go function.

Modelling conventions:
- Go bytes are `Nat` (values < 256 in every reachable state), Go
  `rune`/`int` are `Int` where a value can be negative, `Nat` where the
  code keeps it a nonnegative index.
- The Go `position` package appends line records at the tail of its
  slices and pops from the tail; the Lean lists keep the records with
  the CURRENT line first, i.e. in reverse of the Go slice order, so the
  Go "last element" operations are head operations here.
- The byte source (`io.Reader`, in the tests a `strings.Reader`) is a
  `List Nat` of the not-yet-delivered bytes: a read into a free span of
  size `m` delivers `min m src.length` bytes, and `(0, io.EOF)` when
  the list is empty.
- Methods that mutate the receiver return the new state paired with
  the Go return values; a Go `error` result is an `Option Err` or
  `Except Err`.  Every error return of the Go code returns the state
  exactly as the code left it at the `return` statement.
- Bit masking in the Go UTF-8 decoder is written arithmetically: after
  the range guards have been checked, `b0 & 0x1F = b0 - 0xC0` for a
  two-byte lead, `b0 & 0x0F = b0 - 0xE0`, `b0 & 0x07 = b0 - 0xF0`, and
  `b & 0x3F = b - 0x80` for a continuation byte, so the embedding uses
  the subtractions directly.
-/

deriving instance DecidableEq for Except

/-- The Unicode replacement character U+FFFD, `utf8.RuneError` in Go. -/
def runeError : Int := 0xFFFD

/-- The lower bound Go's `acceptRanges` imposes on the first continuation
byte, as a function of the leading byte (0xA0 after 0xE0, 0x90 after 0xF0,
otherwise 0x80). -/
def acceptLo (b0 : Nat) : Nat :=
  if b0 = 0xE0 then 0xA0 else if b0 = 0xF0 then 0x90 else 0x80

/-- The upper bound Go's `acceptRanges` imposes on the first continuation
byte (0x9F after 0xED, 0x8F after 0xF4, otherwise 0xBF). -/
def acceptHi (b0 : Nat) : Nat :=
  if b0 = 0xED then 0x9F else if b0 = 0xF4 then 0x8F else 0xBF

/-- Go's `unicode/utf8.DecodeRune`: the first code point of the byte list
and its encoded size.  An empty input yields `(RuneError, 0)`; an invalid
leading byte or a truncated or non-shortest sequence yields
`(RuneError, 1)`.  The length guard (`n < sz`) is checked before the
continuation bytes, as in the Go code. -/
def decodeRune (p : List Nat) : Int × Nat :=
  match p with
  | [] => (runeError, 0)
  | b0 :: rest =>
    if b0 < 0x80 then ((b0 : Int), 1)
    else if b0 < 0xC2 then (runeError, 1)
    else if b0 < 0xE0 then
      match rest with
      | [] => (runeError, 1)
      | b1 :: _ =>
        if b1 < 0x80 ∨ 0xBF < b1 then (runeError, 1)
        else (((b0 - 0xC0) * 0x40 + (b1 - 0x80) : Nat), 2)
    else if b0 < 0xF0 then
      match rest with
      | b1 :: b2 :: _ =>
        if b1 < acceptLo b0 ∨ acceptHi b0 < b1 then (runeError, 1)
        else if b2 < 0x80 ∨ 0xBF < b2 then (runeError, 1)
        else (((b0 - 0xE0) * 0x1000 + (b1 - 0x80) * 0x40 + (b2 - 0x80) : Nat), 3)
      | _ => (runeError, 1)
    else if b0 < 0xF5 then
      match rest with
      | b1 :: b2 :: b3 :: _ =>
        if b1 < acceptLo b0 ∨ acceptHi b0 < b1 then (runeError, 1)
        else if b2 < 0x80 ∨ 0xBF < b2 then (runeError, 1)
        else if b3 < 0x80 ∨ 0xBF < b3 then (runeError, 1)
        else (((b0 - 0xF0) * 0x40000 + (b1 - 0x80) * 0x1000 +
               (b2 - 0x80) * 0x40 + (b3 - 0x80) : Nat), 4)
      | _ => (runeError, 1)
    else (runeError, 1)

/-- Go's `unicode/utf8.EncodeRune` (as a produced byte list): a valid
scalar value is encoded in 1–4 bytes; a surrogate or out-of-range value
is encoded as the replacement character `EF BF BD`. -/
def encodeRune (c : Int) : List Nat :=
  if c < 0 then [0xEF, 0xBF, 0xBD]
  else if c < 0x80 then [c.toNat]
  else if c < 0x800 then [0xC0 + c.toNat / 0x40, 0x80 + c.toNat % 0x40]
  else if 0xD800 ≤ c ∧ c ≤ 0xDFFF then [0xEF, 0xBF, 0xBD]
  else if c < 0x10000 then
    [0xE0 + c.toNat / 0x1000, 0x80 + c.toNat / 0x40 % 0x40, 0x80 + c.toNat % 0x40]
  else if c ≤ 0x10FFFF then
    [0xF0 + c.toNat / 0x40000, 0x80 + c.toNat / 0x1000 % 0x40,
     0x80 + c.toNat / 0x40 % 0x40, 0x80 + c.toNat % 0x40]
  else [0xEF, 0xBF, 0xBD]

/-- A Unicode scalar value: encodable and decodable as itself. -/
def ValidRune (c : Int) : Prop :=
  (0 ≤ c ∧ c < 0xD800) ∨ (0xDFFF < c ∧ c ≤ 0x10FFFF)

instance (c : Int) : Decidable (ValidRune c) := by
  unfold ValidRune; infer_instance

/-- The UTF-8 encoding of a list of code points, in order. -/
def encodeRunes : List Int → List Nat
  | [] => []
  | c :: cs => encodeRune c ++ encodeRunes cs

theorem decodeRune_size_pos (b : Nat) (bs : List Nat) :
    1 ≤ (decodeRune (b :: bs)).2 := by
  rcases bs with _ | ⟨b1, _ | ⟨b2, _ | ⟨b3, rest⟩⟩⟩ <;>
    (simp only [decodeRune]; repeat' split) <;> norm_num

theorem decodeRune_size_le (p : List Nat) :
    (decodeRune p).2 ≤ p.length := by
  rcases p with _ | ⟨b0, _ | ⟨b1, _ | ⟨b2, _ | ⟨b3, rest⟩⟩⟩⟩ <;>
    (simp only [decodeRune]; repeat' split) <;> simp

theorem decodeRune_ascii (b0 : Nat) (rest : List Nat) (h : b0 < 0x80) :
    decodeRune (b0 :: rest) = ((b0 : Int), 1) := by
  simp only [decodeRune, if_pos h]

theorem decodeRune_singleton_err (b0 : Nat) (h : 0x80 ≤ b0) :
    decodeRune [b0] = (runeError, 1) := by
  simp only [decodeRune]
  repeat' split
  all_goals first | rfl | omega

theorem decodeRune_two (b0 b1 : Nat) (rest : List Nat) (h1 : 0xC2 ≤ b0)
    (h2 : b0 < 0xE0) (h3 : ¬(b1 < 0x80 ∨ 0xBF < b1)) :
    decodeRune (b0 :: b1 :: rest) = ((((b0 - 0xC0) * 0x40 + (b1 - 0x80) : Nat) : Int), 2) := by
  simp only [decodeRune]
  rw [if_neg (by omega), if_neg (by omega), if_pos h2, if_neg h3]

theorem decodeRune_two_err (b0 b1 : Nat) (rest : List Nat) (h1 : 0xC2 ≤ b0)
    (h2 : b0 < 0xE0) (h3 : b1 < 0x80 ∨ 0xBF < b1) :
    decodeRune (b0 :: b1 :: rest) = (runeError, 1) := by
  simp only [decodeRune]
  rw [if_neg (by omega), if_neg (by omega), if_pos h2, if_pos h3]

theorem decodeRune_three (b0 b1 b2 : Nat) (rest : List Nat) (h1 : 0xE0 ≤ b0)
    (h2 : b0 < 0xF0) (h3 : ¬(b1 < acceptLo b0 ∨ acceptHi b0 < b1))
    (h4 : ¬(b2 < 0x80 ∨ 0xBF < b2)) :
    decodeRune (b0 :: b1 :: b2 :: rest) =
      ((((b0 - 0xE0) * 0x1000 + (b1 - 0x80) * 0x40 + (b2 - 0x80) : Nat) : Int), 3) := by
  simp only [decodeRune]
  rw [if_neg (by omega), if_neg (by omega), if_neg (by omega), if_pos h2,
      if_neg h3, if_neg h4]

theorem decodeRune_four (b0 b1 b2 b3 : Nat) (rest : List Nat) (h1 : 0xF0 ≤ b0)
    (h2 : b0 < 0xF5) (h3 : ¬(b1 < acceptLo b0 ∨ acceptHi b0 < b1))
    (h4 : ¬(b2 < 0x80 ∨ 0xBF < b2)) (h5 : ¬(b3 < 0x80 ∨ 0xBF < b3)) :
    decodeRune (b0 :: b1 :: b2 :: b3 :: rest) =
      ((((b0 - 0xF0) * 0x40000 + (b1 - 0x80) * 0x1000 +
        (b2 - 0x80) * 0x40 + (b3 - 0x80) : Nat) : Int), 4) := by
  simp only [decodeRune]
  rw [if_neg (by omega), if_neg (by omega), if_neg (by omega), if_neg (by omega),
      if_pos (by omega), if_neg h3, if_neg h4, if_neg h5]

set_option maxRecDepth 8192 in
theorem decodeRune_err_one (b0 : Nat) (rest : List Nat) (h : 0x80 ≤ b0)
    (herr : (decodeRune (b0 :: rest)).2 = 1) :
    decodeRune (b0 :: rest) = (runeError, 1) := by
  rcases rest with _ | ⟨b1, _ | ⟨b2, _ | ⟨b3, r⟩⟩⟩ <;>
    (revert herr; simp only [decodeRune]; repeat' split)
  all_goals intro herr
  all_goals first | rfl | omega

set_option maxHeartbeats 800000 in
theorem decodeRune_take_size (l : List Nat) :
    decodeRune (l.take (decodeRune l).2) = decodeRune l := by
  rcases l with _ | ⟨b0, rest⟩
  · rfl
  · rcases Nat.lt_or_ge (decodeRune (b0 :: rest)).2 2 with hsz | hsz
    · -- size 0 is impossible for a cons; size 1: take 1 = [b0]
      have h1 : (decodeRune (b0 :: rest)).2 = 1 := by
        have := decodeRune_size_pos b0 rest
        omega
      rw [h1]
      by_cases hA : b0 < 0x80
      · rw [decodeRune_ascii b0 rest hA]
        simpa using decodeRune_ascii b0 [] hA
      · rw [decodeRune_err_one b0 rest (by omega) h1]
        simpa using decodeRune_singleton_err b0 (by omega)
    · -- size ≥ 2: the leaf must be one of the three valid multi-byte shapes
      by_cases hA : b0 < 0x80
      · rw [decodeRune_ascii b0 rest hA] at hsz ⊢; omega
      by_cases hB : b0 < 0xC2
      · have : decodeRune (b0 :: rest) = (runeError, 1) := by
          simp only [decodeRune]; rw [if_neg hA, if_pos hB]
        rw [this] at hsz; omega
      by_cases hC : b0 < 0xE0
      · rcases rest with _ | ⟨b1, r2⟩
        · have : decodeRune [b0] = (runeError, 1) := decodeRune_singleton_err b0 (by omega)
          rw [this] at hsz; omega
        by_cases h3 : b1 < 0x80 ∨ 0xBF < b1
        · rw [decodeRune_two_err b0 b1 r2 (by omega) hC h3] at hsz; omega
        · rw [decodeRune_two b0 b1 r2 (by omega) hC h3]
          simpa using decodeRune_two b0 b1 [] (by omega) hC h3
      by_cases hD : b0 < 0xF0
      · rcases rest with _ | ⟨b1, _ | ⟨b2, r3⟩⟩
        · have : decodeRune [b0] = (runeError, 1) := decodeRune_singleton_err b0 (by omega)
          rw [this] at hsz; omega
        · have : decodeRune [b0, b1] = (runeError, 1) := by
            simp only [decodeRune]
            rw [if_neg hA, if_neg hB, if_neg (by omega), if_pos hD]
          rw [this] at hsz; omega
        by_cases h3 : b1 < acceptLo b0 ∨ acceptHi b0 < b1
        · have : decodeRune (b0 :: b1 :: b2 :: r3) = (runeError, 1) := by
            simp only [decodeRune]
            rw [if_neg hA, if_neg hB, if_neg (by omega), if_pos hD, if_pos h3]
          rw [this] at hsz; omega
        by_cases h4 : b2 < 0x80 ∨ 0xBF < b2
        · have : decodeRune (b0 :: b1 :: b2 :: r3) = (runeError, 1) := by
            simp only [decodeRune]
            rw [if_neg hA, if_neg hB, if_neg (by omega), if_pos hD, if_neg h3, if_pos h4]
          rw [this] at hsz; omega
        · rw [decodeRune_three b0 b1 b2 r3 (by omega) hD h3 h4]
          simpa using decodeRune_three b0 b1 b2 [] (by omega) hD h3 h4
      by_cases hE : b0 < 0xF5
      · rcases rest with _ | ⟨b1, _ | ⟨b2, _ | ⟨b3, r4⟩⟩⟩
        · have : decodeRune [b0] = (runeError, 1) := decodeRune_singleton_err b0 (by omega)
          rw [this] at hsz; omega
        · have : decodeRune [b0, b1] = (runeError, 1) := by
            simp only [decodeRune]
            rw [if_neg hA, if_neg hB, if_neg (by omega), if_neg (by omega), if_pos hE]
          rw [this] at hsz; omega
        · have : decodeRune [b0, b1, b2] = (runeError, 1) := by
            simp only [decodeRune]
            rw [if_neg hA, if_neg hB, if_neg (by omega), if_neg (by omega), if_pos hE]
          rw [this] at hsz; omega
        by_cases h3 : b1 < acceptLo b0 ∨ acceptHi b0 < b1
        · have : decodeRune (b0 :: b1 :: b2 :: b3 :: r4) = (runeError, 1) := by
            simp only [decodeRune]
            rw [if_neg hA, if_neg hB, if_neg (by omega), if_neg (by omega), if_pos hE,
                if_pos h3]
          rw [this] at hsz; omega
        by_cases h4 : b2 < 0x80 ∨ 0xBF < b2
        · have : decodeRune (b0 :: b1 :: b2 :: b3 :: r4) = (runeError, 1) := by
            simp only [decodeRune]
            rw [if_neg hA, if_neg hB, if_neg (by omega), if_neg (by omega), if_pos hE,
                if_neg h3, if_pos h4]
          rw [this] at hsz; omega
        by_cases h5 : b3 < 0x80 ∨ 0xBF < b3
        · have : decodeRune (b0 :: b1 :: b2 :: b3 :: r4) = (runeError, 1) := by
            simp only [decodeRune]
            rw [if_neg hA, if_neg hB, if_neg (by omega), if_neg (by omega), if_pos hE,
                if_neg h3, if_neg h4, if_pos h5]
          rw [this] at hsz; omega
        · rw [decodeRune_four b0 b1 b2 b3 r4 (by omega) hE h3 h4 h5]
          simpa using decodeRune_four b0 b1 b2 b3 [] (by omega) hE h3 h4 h5
      · have : decodeRune (b0 :: rest) = (runeError, 1) := by
          rcases rest with _ | ⟨b1, _ | ⟨b2, _ | ⟨b3, r⟩⟩⟩ <;>
            (simp only [decodeRune];
             rw [if_neg hA, if_neg hB, if_neg (by omega), if_neg (by omega), if_neg hE])
        rw [this] at hsz; omega

theorem decodeRune_encodeRune (c : Int) (h : ValidRune c) (tail : List Nat) :
    decodeRune (encodeRune c ++ tail) = (c, (encodeRune c).length) := by
  have h0 : 0 ≤ c := by rcases h with ⟨h1, _⟩ | ⟨h1, _⟩ <;> omega
  have hval : c < 0xD800 ∨ (0xDFFF < c ∧ c ≤ 0x10FFFF) := by
    rcases h with ⟨_, h1⟩ | ⟨h1, h2⟩ <;> omega
  by_cases h1 : c < 0x80
  · have henc : encodeRune c = [c.toNat] := by
      unfold encodeRune; rw [if_neg (by omega), if_pos h1]
    rw [henc]
    show decodeRune (c.toNat :: tail) = (c, 1)
    simp only [decodeRune]
    rw [if_pos (by omega)]
    rw [Int.toNat_of_nonneg h0]
  · by_cases h2 : c < 0x800
    · have henc : encodeRune c = [0xC0 + c.toNat / 0x40, 0x80 + c.toNat % 0x40] := by
        unfold encodeRune
        rw [if_neg (by omega), if_neg (by omega), if_pos h2]
      rw [henc]
      show decodeRune ((0xC0 + c.toNat / 0x40) :: (0x80 + c.toNat % 0x40) :: tail)
          = (c, 2)
      simp only [decodeRune]
      rw [if_neg (by omega), if_neg (by omega), if_pos (by omega), if_neg (by omega)]
      have : ((0xC0 + c.toNat / 0x40 - 0xC0) * 0x40 + (0x80 + c.toNat % 0x40 - 0x80) : Nat)
          = c.toNat := by omega
      rw [this, Int.toNat_of_nonneg h0]
    · by_cases h3 : c < 0x10000
      · have hsur : ¬(0xD800 ≤ c ∧ c ≤ 0xDFFF) := by omega
        have henc : encodeRune c = [0xE0 + c.toNat / 0x1000,
            0x80 + c.toNat / 0x40 % 0x40, 0x80 + c.toNat % 0x40] := by
          unfold encodeRune
          rw [if_neg (by omega), if_neg (by omega), if_neg (by omega),
              if_neg hsur, if_pos h3]
        rw [henc]
        show decodeRune ((0xE0 + c.toNat / 0x1000) :: (0x80 + c.toNat / 0x40 % 0x40)
            :: (0x80 + c.toNat % 0x40) :: tail) = (c, 3)
        have hlo : acceptLo (0xE0 + c.toNat / 0x1000) ≤ 0x80 + c.toNat / 0x40 % 0x40 := by
          unfold acceptLo
          split
          · next hb => omega
          · split
            · next hb => omega
            · omega
        have hhi : 0x80 + c.toNat / 0x40 % 0x40 ≤ acceptHi (0xE0 + c.toNat / 0x1000) := by
          unfold acceptHi
          split
          · next hb => omega
          · split
            · next hb => omega
            · omega
        simp only [decodeRune]
        rw [if_neg (by omega), if_neg (by omega), if_neg (by omega), if_pos (by omega),
            if_neg (by omega), if_neg (by omega)]
        have : ((0xE0 + c.toNat / 0x1000 - 0xE0) * 0x1000 +
            (0x80 + c.toNat / 0x40 % 0x40 - 0x80) * 0x40 +
            (0x80 + c.toNat % 0x40 - 0x80) : Nat) = c.toNat := by omega
        rw [this, Int.toNat_of_nonneg h0]
      · have h4 : c ≤ 0x10FFFF := by omega
        have henc : encodeRune c = [0xF0 + c.toNat / 0x40000,
            0x80 + c.toNat / 0x1000 % 0x40, 0x80 + c.toNat / 0x40 % 0x40,
            0x80 + c.toNat % 0x40] := by
          unfold encodeRune
          rw [if_neg (by omega), if_neg (by omega), if_neg (by omega),
              if_neg (by omega), if_neg (by omega), if_pos h4]
        rw [henc]
        show decodeRune ((0xF0 + c.toNat / 0x40000) :: (0x80 + c.toNat / 0x1000 % 0x40)
            :: (0x80 + c.toNat / 0x40 % 0x40) :: (0x80 + c.toNat % 0x40) :: tail) = (c, 4)
        have hlo : acceptLo (0xF0 + c.toNat / 0x40000) ≤ 0x80 + c.toNat / 0x1000 % 0x40 := by
          unfold acceptLo
          split
          · next hb => omega
          · split
            · next hb => omega
            · omega
        have hhi : 0x80 + c.toNat / 0x1000 % 0x40 ≤ acceptHi (0xF0 + c.toNat / 0x40000) := by
          unfold acceptHi
          split
          · next hb => omega
          · split
            · next hb => omega
            · omega
        simp only [decodeRune]
        rw [if_neg (by omega), if_neg (by omega), if_neg (by omega), if_neg (by omega),
            if_pos (by omega), if_neg (by omega), if_neg (by omega), if_neg (by omega)]
        have : ((0xF0 + c.toNat / 0x40000 - 0xF0) * 0x40000 +
            (0x80 + c.toNat / 0x1000 % 0x40 - 0x80) * 0x1000 +
            (0x80 + c.toNat / 0x40 % 0x40 - 0x80) * 0x40 +
            (0x80 + c.toNat % 0x40 - 0x80) : Nat) = c.toNat := by omega
        rw [this, Int.toNat_of_nonneg h0]

/-- `decodeRune` reads at most the first four bytes of its input (the four
patterns of the Go decoder), so two lists with the same first four bytes
decode alike. -/
theorem decodeRune_eq_of_take4 (l₁ l₂ : List Nat) (h : l₁.take 4 = l₂.take 4) :
    decodeRune l₁ = decodeRune l₂ := by
  rcases l₁ with _ | ⟨a0, _ | ⟨a1, _ | ⟨a2, _ | ⟨a3, r1⟩⟩⟩⟩ <;>
    rcases l₂ with _ | ⟨b0, _ | ⟨b1, _ | ⟨b2, _ | ⟨b3, r2⟩⟩⟩⟩ <;>
    simp_all [List.take] <;> simp [decodeRune, h]

/-- The loop of Go's `utf8.RuneCount` / rune-at-a-time decoding, with
explicit fuel so that the recursion is structural (the fuel is an upper
bound on the number of decode steps; each step consumes at least one
byte).  `decodeAll` runs it with fuel `bs.length`. -/
def decodeAllF : Nat → List Nat → List Int
  | 0, _ => []
  | _, [] => []
  | fuel + 1, b :: rest =>
    (decodeRune (b :: rest)).1 ::
      decodeAllF fuel ((b :: rest).drop (decodeRune (b :: rest)).2)

/-- All the code points of a byte list, decoded from the front, skipping
`size` bytes per step. -/
def decodeAll (bs : List Nat) : List Int := decodeAllF bs.length bs

theorem decodeAllF_fuel : ∀ (f₁ f₂ : Nat) (bs : List Nat), bs.length ≤ f₁ →
    bs.length ≤ f₂ → decodeAllF f₁ bs = decodeAllF f₂ bs := by
  intro f₁
  induction f₁ with
  | zero =>
    intro f₂ bs h1 _
    have : bs = [] := List.length_eq_zero.mp (Nat.le_zero.mp h1)
    subst this
    cases f₂ <;> rfl
  | succ f ih =>
    intro f₂ bs h1 h2
    match bs with
    | [] => cases f₂ <;> rfl
    | b :: rest =>
      match f₂ with
      | 0 => simp at h2
      | f₂ + 1 =>
        show (decodeRune (b :: rest)).1 :: decodeAllF f _
            = (decodeRune (b :: rest)).1 :: decodeAllF f₂ _
        have hlen : ((b :: rest).drop (decodeRune (b :: rest)).2).length ≤ f := by
          have := decodeRune_size_pos b rest
          simp only [List.length_drop, List.length_cons]
          simp only [List.length_cons] at h1
          omega
        have hlen2 : ((b :: rest).drop (decodeRune (b :: rest)).2).length ≤ f₂ := by
          have := decodeRune_size_pos b rest
          simp only [List.length_drop, List.length_cons]
          simp only [List.length_cons] at h2
          omega
        rw [ih _ _ hlen hlen2]

theorem decodeAllF_congr (f : Nat) (bs : List Nat) (h : bs.length ≤ f) :
    decodeAllF f bs = decodeAll bs :=
  decodeAllF_fuel f bs.length bs h (Nat.le_refl _)

/-- The unfolding equation of `decodeAll` on a nonempty list. -/
theorem decodeAll_cons (b : Nat) (rest : List Nat) :
    decodeAll (b :: rest) =
      (decodeRune (b :: rest)).1 ::
        decodeAll ((b :: rest).drop (decodeRune (b :: rest)).2) := by
  show decodeAllF (rest.length + 1) (b :: rest) = _
  rw [show decodeAllF (rest.length + 1) (b :: rest)
        = (decodeRune (b :: rest)).1 ::
          decodeAllF rest.length ((b :: rest).drop (decodeRune (b :: rest)).2) from rfl]
  rw [decodeAllF_congr rest.length _ (by
    have := decodeRune_size_pos b rest
    simp only [List.length_drop, List.length_cons]
    omega)]

/-- Go's `unicode/utf8.RuneCount`: the number of code points in the byte
list. -/
def runeCount (bs : List Nat) : Nat := (decodeAll bs).length

theorem encodeRune_length_pos (c : Int) : 1 ≤ (encodeRune c).length := by
  unfold encodeRune
  repeat' split
  all_goals simp

/-- Decoding inverts encoding: the UTF-8 encoding of a list of scalar
values decodes back to exactly that list. -/
theorem decodeAll_encodeRunes (text : List Int) (h : ∀ c ∈ text, ValidRune c) :
    decodeAll (encodeRunes text) = text := by
  induction text with
  | nil => rfl
  | cons c cs ih =>
    have hc : ValidRune c := h c (by simp)
    have hd := decodeRune_encodeRune c hc (encodeRunes cs)
    have hne : encodeRune c ++ encodeRunes cs ≠ [] := by
      have h1 : 1 ≤ (encodeRune c).length := encodeRune_length_pos c
      intro hcon
      rcases List.append_eq_nil.mp hcon with ⟨he, _⟩
      rw [he] at h1
      simp at h1
    match hm : encodeRune c ++ encodeRunes cs with
    | [] => exact absurd hm hne
    | b :: rest =>
      show decodeAll (encodeRunes (c :: cs)) = c :: cs
      have henc : encodeRunes (c :: cs) = b :: rest := by
        simpa [encodeRunes] using hm
      rw [henc]
      rw [decodeAll_cons]
      rw [← hm] at *
      rw [hd]
      have hdrop : (encodeRune c ++ encodeRunes cs).drop (encodeRune c).length
          = encodeRunes cs := by
        simp
      rw [hdrop]
      rw [ih (fun x hx => h x (by simp [hx]))]

example : decodeAll [97, 228, 189, 160, 10] = [97, 0x4F60, 10] := by decide
example : runeCount [97, 228, 189, 160, 10] = 3 := by decide

/-- The `position` package's `Position`: parallel per-line records
(`runesPerLine[i]` code points and `bytesPerLine[i]` non-newline bytes on
line `i`) and the total byte `offset`.  The Go slices append/pop at the
tail; these lists keep the records with the current line FIRST (reverse
of the Go slice order). -/
structure Position where
  runesPerLine : List Int
  bytesPerLine : List Int
  offset : Int
deriving DecidableEq

/-- `position.New`: empty record lists, offset 0. -/
def Position.New : Position := ⟨[], [], 0⟩

/-- `Position.line`: the number of line records, and 1 when there are
none. -/
def Position.line (p : Position) : Nat :=
  if p.runesPerLine.length < 1 then 1 else p.runesPerLine.length

/-- `Position.column`: the rune count of the current line record, 0 when
there is none. -/
def Position.column (p : Position) : Int :=
  match p.runesPerLine with
  | [] => 0
  | c :: _ => c

/-- One iteration of `Scan`'s decode loop: a newline opens a fresh empty
record; any other code point adds one rune and `size` bytes to the
current record; either way `offset` grows by `size`.  (Go indexes the
current record as the last slice element; here it is the list head.  The
no-record fallback is unreachable: `Scan` creates a record first.) -/
def scanStep (p : Position) (c : Int) (size : Nat) : Position :=
  if c = 10 then ⟨0 :: p.runesPerLine, 0 :: p.bytesPerLine, p.offset + size⟩
  else
    match p.runesPerLine, p.bytesPerLine with
    | r0 :: rs, b0 :: bs => ⟨(r0 + 1) :: rs, (b0 + size) :: bs, p.offset + size⟩
    | _, _ => ⟨p.runesPerLine, p.bytesPerLine, p.offset + size⟩

/-- The decode loop of `Scan`, with fuel for structural recursion (each
step consumes at least one byte, so fuel `input.length` is enough). -/
def scanGoF : Nat → Position → List Nat → Position
  | 0, p, _ => p
  | _, p, [] => p
  | fuel + 1, p, b :: rest =>
    scanGoF fuel
      (scanStep p (decodeRune (b :: rest)).1 (decodeRune (b :: rest)).2)
      ((b :: rest).drop (decodeRune (b :: rest)).2)

/-- `Position.Scan`: ensure at least one line record exists (Go resets
`runesPerLine`/`bytesPerLine` to `{0}` when empty), then run the decode
loop over the input bytes. -/
def Position.Scan (p : Position) (input : List Nat) : Position :=
  scanGoF input.length
    (if p.runesPerLine.length = 0 then ⟨[0], [0], p.offset⟩ else p) input

theorem scanGoF_fuel : ∀ (f₁ f₂ : Nat) (p : Position) (input : List Nat),
    input.length ≤ f₁ → input.length ≤ f₂ →
    scanGoF f₁ p input = scanGoF f₂ p input := by
  intro f₁
  induction f₁ with
  | zero =>
    intro f₂ p input h1 _
    have : input = [] := List.length_eq_zero.mp (Nat.le_zero.mp h1)
    subst this
    cases f₂ <;> rfl
  | succ f ih =>
    intro f₂ p input h1 h2
    match input with
    | [] => cases f₂ <;> rfl
    | b :: rest =>
      match f₂ with
      | 0 => simp at h2
      | f₂ + 1 =>
        show scanGoF f _ _ = scanGoF f₂ _ _
        have hs := decodeRune_size_pos b rest
        have hlen : ((b :: rest).drop (decodeRune (b :: rest)).2).length ≤ f := by
          simp only [List.length_drop, List.length_cons]
          simp only [List.length_cons] at h1
          omega
        have hlen2 : ((b :: rest).drop (decodeRune (b :: rest)).2).length ≤ f₂ := by
          simp only [List.length_drop, List.length_cons]
          simp only [List.length_cons] at h2
          omega
        exact ih _ _ _ hlen hlen2

/-- `Scan` on a nonempty input: one decode step, then the rest. -/
theorem scan_cons (p : Position) (b : Nat) (rest : List Nat)
    (hne : p.runesPerLine ≠ []) :
    p.Scan (b :: rest) =
      (scanStep p (decodeRune (b :: rest)).1 (decodeRune (b :: rest)).2).Scan
        ((b :: rest).drop (decodeRune (b :: rest)).2) := by
  have hs := decodeRune_size_pos b rest
  have hlen : ((b :: rest).drop (decodeRune (b :: rest)).2).length ≤ rest.length := by
    simp only [List.length_drop, List.length_cons]
    omega
  unfold Position.Scan
  rw [if_neg (by simpa using hne)]
  show scanGoF (rest.length + 1) p (b :: rest) = _
  have step : scanGoF (rest.length + 1) p (b :: rest)
      = scanGoF rest.length
          (scanStep p (decodeRune (b :: rest)).1 (decodeRune (b :: rest)).2)
          ((b :: rest).drop (decodeRune (b :: rest)).2) := rfl
  rw [step]
  have hne2 : (scanStep p (decodeRune (b :: rest)).1 (decodeRune (b :: rest)).2).runesPerLine ≠ [] := by
    unfold scanStep
    rcases p with ⟨_ | ⟨r0, rs⟩, _ | ⟨b0, bs⟩, off⟩ <;> split <;> simp_all
  rw [if_neg (by simpa using hne2)]
  exact scanGoF_fuel _ _ _ _ (by omega) (le_refl _)

/-- `Position.Reset`: back to the empty initial state (Go truncates both
slices to length 0 and zeroes the offset). -/
def Position.Reset (_ : Position) : Position := ⟨[], [], 0⟩

/-- `Position.Copy`: a value with the same records and offset (the Go
code allocates fresh slices and a fresh mutex; the field values are what
is observable here). -/
def Position.Copy (p : Position) : Position :=
  ⟨p.runesPerLine, p.bytesPerLine, p.offset⟩

/-- The distinct error returns of `Position.Rewind`. -/
inductive PosErr
  | negative
  | notEnoughHistory
  | failed
deriving DecidableEq

/-- The backward walk of `Rewind`: records are visited from the current
line (Go: `lastLine := len-1` downwards; here: from the list head).  The
list pairs each line's `bytesPerLine` entry with its `runesPerLine`
entry.  Returns the remaining records and the tallies
`(bytesRewound, runesRewound)` at loop exit, or `none` when the walk ran
out of records (`lastLine` reached -1, which the Go code then reports as
an error).  Consuming a whole record adds its tallies plus one byte and
one rune for the newline separating it from the previous record. -/
def rewindWalk (bytes : Int) : List (Int × Int) → Int → Int →
    Option (List (Int × Int) × Int × Int)
  | [], _, _ => none
  | (b, r) :: rest, bRew, rRew =>
    if bRew < bytes then
      if bytes - bRew ≤ b then some ((b, r) :: rest, bRew, rRew)
      else
        match rest with
        | [] => none
        | _ :: _ => rewindWalk bytes rest (bRew + b + 1) (rRew + r + 1)
    else some ((b, r) :: rest, bRew, rRew)

/-- `Position.Rewind(bytes, runes)`: the exact inverse of prior `Scan`
calls.  Case order follows the Go `switch`; on success the surviving
current record loses the remaining byte/rune tallies in place, the later
records are dropped, and `offset` decreases by `bytes`.  Every error
leaves the position unchanged. -/
def Position.Rewind (p : Position) (bytes runes : Int) : Except PosErr Position :=
  if bytes = 0 ∧ runes = 0 then .ok p
  else if bytes < 0 ∨ runes < 0 then .error .negative
  else if bytes > p.offset then .error .notEnoughHistory
  else if bytes = p.offset then .ok (p.Reset)
  else
    match rewindWalk bytes (p.bytesPerLine.zip p.runesPerLine) 0 0 with
    | some ((b, r) :: rest, bRew, rRew) =>
      if b ≥ bytes - bRew then
        .ok ⟨(r - (runes - rRew)) :: rest.map Prod.snd,
             (b - (bytes - bRew)) :: rest.map Prod.fst,
             p.offset - bytes⟩
      else .error .failed
    | _ => .error .failed

example : (Position.New.Scan [104, 105, 10, 228, 189, 160]).line = 2 := by decide
example : (Position.New.Scan [104, 105, 10, 228, 189, 160]).column = 1 := by decide
example : (Position.New.Scan [104, 105, 10, 228, 189, 160]).offset = 6 := by decide
example : (Position.New.Scan [104, 105]).Rewind 1 1
    = .ok (⟨[1], [1], 1⟩ : Position) := by decide
example : (Position.New.Scan [104, 105]).Rewind 3 3 = .error .notEnoughHistory := by
  decide

theorem acceptLo_ge (b0 : Nat) : 0x80 ≤ acceptLo b0 := by
  unfold acceptLo
  repeat' split
  all_goals norm_num

/-- Newline bookkeeping of one decode step: the decoded code point is the
newline (10) exactly when the leading byte is `0x0A`; in that case the
size is 1; and the bytes the step consumes contain the byte `0x0A`
exactly when the step decoded the newline (a multi-byte sequence consists
of a lead `≥ 0xC2` and continuations in `[0x80, 0xBF]`, none of which is
`0x0A`). -/
theorem decodeRune_nl (b : Nat) (rest : List Nat) :
    (((decodeRune (b :: rest)).1 = 10) ↔ b = 10) ∧
    ((decodeRune (b :: rest)).1 = 10 → (decodeRune (b :: rest)).2 = 1) ∧
    (((b :: rest).take (decodeRune (b :: rest)).2).count 10
      = if b = 10 then 1 else 0) := by
  have hRE : runeError = 0xFFFD := rfl
  by_cases hA : b < 0x80
  · rw [decodeRune_ascii b rest hA]
    refine ⟨by constructor <;> (intro h; omega), fun _ => rfl, ?_⟩
    by_cases hb : b = 10 <;> simp [hb, List.count_cons, List.take]
  · have hbne : b ≠ 10 := by omega
    have count1 : ([b] : List Nat).count 10 = if b = 10 then 1 else 0 := by
      simp [hbne, List.count_cons]
    by_cases hB : b < 0xC2
    · have hv : decodeRune (b :: rest) = (runeError, 1) := by
        simp only [decodeRune]
        rw [if_neg hA, if_pos hB]
      rw [hv]
      refine ⟨by simp [hRE, hbne], by simp [hRE], ?_⟩
      simpa [List.take] using count1
    by_cases hC : b < 0xE0
    · rcases rest with _ | ⟨b1, r2⟩
      · rw [decodeRune_singleton_err b (by omega)]
        refine ⟨by simp [hRE, hbne], by simp [hRE], ?_⟩
        simpa [List.take] using count1
      by_cases h3 : b1 < 0x80 ∨ 0xBF < b1
      · rw [decodeRune_two_err b b1 r2 (by omega) hC h3]
        refine ⟨by simp [hRE, hbne], by simp [hRE], ?_⟩
        simpa [List.take] using count1
      · rw [decodeRune_two b b1 r2 (by omega) hC h3]
        have hval : ¬ (((((b - 0xC0) * 0x40 + (b1 - 0x80) : Nat) : Int)) = 10) := by
          omega
        refine ⟨by constructor <;> (intro h; omega), by intro h; omega, ?_⟩
        rw [if_neg hbne]
        simp [List.take, List.count_cons, hbne]
        omega
    by_cases hD : b < 0xF0
    · rcases rest with _ | ⟨b1, _ | ⟨b2, r3⟩⟩
      · rw [decodeRune_singleton_err b (by omega)]
        refine ⟨by simp [hRE, hbne], by simp [hRE], ?_⟩
        simpa [List.take] using count1
      · have hv : decodeRune [b, b1] = (runeError, 1) := by
          simp only [decodeRune]
          rw [if_neg hA, if_neg hB, if_neg (by omega), if_pos hD]
        rw [hv]
        refine ⟨by simp [hRE, hbne], by simp [hRE], ?_⟩
        simpa [List.take] using count1
      by_cases h3 : b1 < acceptLo b ∨ acceptHi b < b1
      · have hv : decodeRune (b :: b1 :: b2 :: r3) = (runeError, 1) := by
          simp only [decodeRune]
          rw [if_neg hA, if_neg hB, if_neg (by omega), if_pos hD, if_pos h3]
        rw [hv]
        refine ⟨by simp [hRE, hbne], by simp [hRE], ?_⟩
        simpa [List.take] using count1
      by_cases h4 : b2 < 0x80 ∨ 0xBF < b2
      · have hv : decodeRune (b :: b1 :: b2 :: r3) = (runeError, 1) := by
          simp only [decodeRune]
          rw [if_neg hA, if_neg hB, if_neg (by omega), if_pos hD, if_neg h3, if_pos h4]
        rw [hv]
        refine ⟨by simp [hRE, hbne], by simp [hRE], ?_⟩
        simpa [List.take] using count1
      · rw [decodeRune_three b b1 b2 r3 (by omega) hD h3 h4]
        push_neg at h3
        have hlo3 : (b = 0xE0 ∧ 0xA0 ≤ b1) ∨ (0xE1 ≤ b ∧ 0x80 ≤ b1) := by
          by_cases hE0 : b = 0xE0
          · left
            refine ⟨hE0, ?_⟩
            have hlo : acceptLo 0xE0 = 0xA0 := by decide
            rw [hE0, hlo] at h3
            omega
          · right
            have := acceptLo_ge b
            constructor <;> omega
        refine ⟨by constructor <;> (intro h; omega), by intro h; omega, ?_⟩
        rw [if_neg hbne]
        simp [List.take, List.count_cons, hbne]
        omega
    by_cases hE : b < 0xF5
    · rcases rest with _ | ⟨b1, _ | ⟨b2, _ | ⟨b3, r4⟩⟩⟩
      · rw [decodeRune_singleton_err b (by omega)]
        refine ⟨by simp [hRE, hbne], by simp [hRE], ?_⟩
        simpa [List.take] using count1
      · have hv : decodeRune [b, b1] = (runeError, 1) := by
          simp only [decodeRune]
          rw [if_neg hA, if_neg hB, if_neg (by omega), if_neg (by omega), if_pos hE]
        rw [hv]
        refine ⟨by simp [hRE, hbne], by simp [hRE], ?_⟩
        simpa [List.take] using count1
      · have hv : decodeRune [b, b1, b2] = (runeError, 1) := by
          simp only [decodeRune]
          rw [if_neg hA, if_neg hB, if_neg (by omega), if_neg (by omega), if_pos hE]
        rw [hv]
        refine ⟨by simp [hRE, hbne], by simp [hRE], ?_⟩
        simpa [List.take] using count1
      by_cases h3 : b1 < acceptLo b ∨ acceptHi b < b1
      · have hv : decodeRune (b :: b1 :: b2 :: b3 :: r4) = (runeError, 1) := by
          simp only [decodeRune]
          rw [if_neg hA, if_neg hB, if_neg (by omega), if_neg (by omega), if_pos hE,
              if_pos h3]
        rw [hv]
        refine ⟨by simp [hRE, hbne], by simp [hRE], ?_⟩
        simpa [List.take] using count1
      by_cases h4 : b2 < 0x80 ∨ 0xBF < b2
      · have hv : decodeRune (b :: b1 :: b2 :: b3 :: r4) = (runeError, 1) := by
          simp only [decodeRune]
          rw [if_neg hA, if_neg hB, if_neg (by omega), if_neg (by omega), if_pos hE,
              if_neg h3, if_pos h4]
        rw [hv]
        refine ⟨by simp [hRE, hbne], by simp [hRE], ?_⟩
        simpa [List.take] using count1
      by_cases h5 : b3 < 0x80 ∨ 0xBF < b3
      · have hv : decodeRune (b :: b1 :: b2 :: b3 :: r4) = (runeError, 1) := by
          simp only [decodeRune]
          rw [if_neg hA, if_neg hB, if_neg (by omega), if_neg (by omega), if_pos hE,
              if_neg h3, if_neg h4, if_pos h5]
        rw [hv]
        refine ⟨by simp [hRE, hbne], by simp [hRE], ?_⟩
        simpa [List.take] using count1
      · rw [decodeRune_four b b1 b2 b3 r4 (by omega) hE h3 h4 h5]
        push_neg at h3
        have hlo4 : (b = 0xF0 ∧ 0x90 ≤ b1) ∨ (0xF1 ≤ b ∧ 0x80 ≤ b1) := by
          by_cases hF0 : b = 0xF0
          · left
            refine ⟨hF0, ?_⟩
            have hlo : acceptLo 0xF0 = 0x90 := by decide
            rw [hF0, hlo] at h3
            omega
          · right
            have := acceptLo_ge b
            constructor <;> omega
        refine ⟨by constructor <;> (intro h; omega), by intro h; omega, ?_⟩
        rw [if_neg hbne]
        simp [List.take, List.count_cons, hbne]
        omega
    · have hv : decodeRune (b :: rest) = (runeError, 1) := by
        rcases rest with _ | ⟨b1, _ | ⟨b2, _ | ⟨b3, r⟩⟩⟩ <;>
          (simp only [decodeRune];
           rw [if_neg hA, if_neg hB, if_neg (by omega), if_neg (by omega), if_neg hE])
      rw [hv]
      refine ⟨by simp [hRE, hbne], by simp [hRE], ?_⟩
      simpa [List.take] using count1

/-- Well-formedness of a `Position`, as every reachable position
satisfies it: parallel record lists of equal length; each record holds
`0 ≤ runes ≤ bytes`; and the offset is the byte sum plus one newline byte
per line boundary. -/
def PosWF (p : Position) : Prop :=
  p.runesPerLine.length = p.bytesPerLine.length ∧
  (∀ x ∈ p.bytesPerLine.zip p.runesPerLine, 0 ≤ x.2 ∧ x.2 ≤ x.1) ∧
  p.offset = p.bytesPerLine.sum +
    (if p.bytesPerLine = [] then 0 else (p.bytesPerLine.length : Int) - 1)

instance (p : Position) : Decidable (PosWF p) := by
  unfold PosWF; infer_instance

theorem scanStep_offset (p : Position) (c : Int) (s : Nat) :
    (scanStep p c s).offset = p.offset + s := by
  unfold scanStep
  repeat' split
  all_goals rfl

theorem scanGoF_offset : ∀ (f : Nat) (p : Position) (input : List Nat),
    input.length ≤ f → (scanGoF f p input).offset = p.offset + input.length := by
  intro f
  induction f with
  | zero =>
    intro p input h
    have : input = [] := List.length_eq_zero.mp (Nat.le_zero.mp h)
    subst this; simp [scanGoF]
  | succ f ih =>
    intro p input h
    match input with
    | [] => simp [scanGoF]
    | b :: rest =>
      show (scanGoF f _ _).offset = _
      have hs := decodeRune_size_pos b rest
      have hsle := decodeRune_size_le (b :: rest)
      have hlen : ((b :: rest).drop (decodeRune (b :: rest)).2).length ≤ f := by
        simp only [List.length_drop, List.length_cons]
        simp only [List.length_cons] at h
        omega
      rw [ih _ _ hlen, scanStep_offset]
      simp only [List.length_drop, List.length_cons]
      simp only [List.length_cons] at hsle ⊢
      push_cast
      omega

/-- `Scan` advances the offset by exactly the number of bytes scanned,
whatever the bytes are. -/
theorem scan_offset (p : Position) (input : List Nat) :
    (p.Scan input).offset = p.offset + input.length := by
  unfold Position.Scan
  split <;> rw [scanGoF_offset _ _ _ (le_refl _)]

theorem scanStep_lines_length (p : Position) (c : Int) (s : Nat) :
    (scanStep p c s).runesPerLine.length =
      p.runesPerLine.length + (if c = 10 then 1 else 0) := by
  unfold scanStep
  repeat' split
  all_goals simp_all

theorem scanGoF_lines_length : ∀ (f : Nat) (p : Position) (input : List Nat),
    input.length ≤ f →
    (scanGoF f p input).runesPerLine.length =
      p.runesPerLine.length + input.count 10 := by
  intro f
  induction f with
  | zero =>
    intro p input h
    have : input = [] := List.length_eq_zero.mp (Nat.le_zero.mp h)
    subst this; simp [scanGoF]
  | succ f ih =>
    intro p input h
    match input with
    | [] => simp [scanGoF]
    | b :: rest =>
      show (scanGoF f _ _).runesPerLine.length = _
      have hs := decodeRune_size_pos b rest
      have hlen : ((b :: rest).drop (decodeRune (b :: rest)).2).length ≤ f := by
        simp only [List.length_drop, List.length_cons]
        simp only [List.length_cons] at h
        omega
      rw [ih _ _ hlen, scanStep_lines_length]
      obtain ⟨hiff, _, hcount⟩ := decodeRune_nl b rest
      have hsplit : (b :: rest).count 10 =
          ((b :: rest).take (decodeRune (b :: rest)).2).count 10 +
          ((b :: rest).drop (decodeRune (b :: rest)).2).count 10 := by
        rw [← List.count_append, List.take_append_drop]
      rw [hsplit, hcount]
      by_cases hb : b = 10
      · rw [if_pos hb, if_pos (hiff.mpr hb)]
        omega
      · rw [if_neg hb, if_neg (fun hc => hb (hiff.mp hc))]
        omega

/-- `Scan` adds one line per newline byte scanned, whatever the chunking:
the reported line number grows by the number of `0x0A` bytes. -/
theorem scan_line (p : Position) (input : List Nat) :
    (p.Scan input).line = p.line + input.count 10 := by
  unfold Position.Scan Position.line
  by_cases hzero : p.runesPerLine.length = 0
  · rw [if_pos hzero]
    rw [scanGoF_lines_length _ _ _ (le_refl _)]
    simp [hzero]
  · rw [if_neg hzero]
    rw [scanGoF_lines_length _ _ _ (le_refl _)]
    have h1 : ¬ p.runesPerLine.length + input.count 10 < 1 := by omega
    rw [if_neg h1, if_neg (by omega)]

theorem scanStep_ne (p : Position) (c : Int) (s : Nat) (hne : p.runesPerLine ≠ []) :
    (scanStep p c s).runesPerLine ≠ [] := by
  unfold scanStep
  rcases p with ⟨_ | ⟨r0, rs⟩, _ | ⟨b0, bs⟩, off⟩ <;> split <;> simp_all

theorem scanStep_wf (p : Position) (c : Int) (s : Nat) (hp : PosWF p)
    (hne : p.runesPerLine ≠ []) (hs : 1 ≤ s) (hnl : c = 10 → s = 1) :
    PosWF (scanStep p c s) := by
  obtain ⟨rpl, bpl, off⟩ := p
  obtain ⟨hlen, hent, hoff⟩ := hp
  simp only at hlen hent hoff hne ⊢
  rcases rpl with _ | ⟨r0, rs⟩
  · exact absurd rfl hne
  rcases bpl with _ | ⟨b0, bs⟩
  · simp at hlen
  by_cases hc : c = 10
  · have hs1 : s = 1 := hnl hc
    subst hs1
    unfold scanStep
    rw [if_pos hc]
    refine ⟨by simpa using hlen, ?_, ?_⟩
    · intro x hx
      simp only [List.zip_cons_cons, List.mem_cons] at hx
      rcases hx with rfl | rfl | hx
      · simp
      · exact hent (b0, r0) (by simp)
      · exact hent x (by simp only [List.zip_cons_cons, List.mem_cons]; exact Or.inr hx)
    · simp only [List.sum_cons] at hoff ⊢
      simp only [List.length_cons] at hoff ⊢
      rw [if_neg (by simp)] at hoff ⊢
      push_cast at hoff ⊢
      omega
  · unfold scanStep
    rw [if_neg hc]
    show PosWF ⟨(r0 + 1) :: rs, (b0 + (s : Int)) :: bs, off + s⟩
    have hhead : 0 ≤ r0 ∧ r0 ≤ b0 := by
      have := hent (b0, r0) (by simp)
      simpa using this
    refine ⟨by simpa using hlen, ?_, ?_⟩
    · intro x hx
      simp only [List.zip_cons_cons, List.mem_cons] at hx
      rcases hx with rfl | hx
      · constructor
        · simp; omega
        · simp; omega
      · exact hent x (by simp only [List.zip_cons_cons, List.mem_cons]; exact Or.inr hx)
    · simp only [List.sum_cons] at hoff ⊢
      simp only [List.length_cons] at hoff ⊢
      rw [if_neg (by simp)] at hoff ⊢
      push_cast at hoff ⊢
      omega

theorem scanGoF_wf : ∀ (f : Nat) (p : Position) (input : List Nat),
    input.length ≤ f → PosWF p → p.runesPerLine ≠ [] →
    PosWF (scanGoF f p input) ∧ (scanGoF f p input).runesPerLine ≠ [] := by
  intro f
  induction f with
  | zero =>
    intro p input h hp hne
    have : input = [] := List.length_eq_zero.mp (Nat.le_zero.mp h)
    subst this; exact ⟨hp, hne⟩
  | succ f ih =>
    intro p input h hp hne
    match input with
    | [] => exact ⟨hp, hne⟩
    | b :: rest =>
      show PosWF (scanGoF f _ _) ∧ _
      have hs := decodeRune_size_pos b rest
      have hlen : ((b :: rest).drop (decodeRune (b :: rest)).2).length ≤ f := by
        simp only [List.length_drop, List.length_cons]
        simp only [List.length_cons] at h
        omega
      have hnl := (decodeRune_nl b rest).2.1
      exact ih _ _ hlen (scanStep_wf p _ _ hp hne hs hnl) (scanStep_ne p _ _ hne)

/-- `Scan` preserves well-formedness. -/
theorem scan_wf (p : Position) (input : List Nat) (hp : PosWF p) :
    PosWF (p.Scan input) := by
  unfold Position.Scan
  split
  · next hz =>
    have hinit : PosWF ⟨[0], [0], p.offset⟩ := by
      obtain ⟨hlen, _, hoff⟩ := hp
      have hb : p.bytesPerLine = [] := by
        have := List.length_eq_zero.mp (by omega : p.bytesPerLine.length = 0)
        · exact this
      rw [hb] at hoff
      simp at hoff
      exact ⟨by simp, by simp, by simp [hoff]⟩
    exact (scanGoF_wf _ _ _ (le_refl _) hinit (by simp)).1
  · next hz =>
    have hne : p.runesPerLine ≠ [] := by
      intro hcon
      exact hz (by simp [hcon])
    exact (scanGoF_wf _ _ _ (le_refl _) hp hne).1

/-- `Scan` of a nonempty chunk that is exactly one UTF-8 decode unit is a
single `scanStep`. -/
theorem scan_unit (p : Position) (b : Nat) (rest : List Nat)
    (hne : p.runesPerLine ≠ []) (hlen : (decodeRune (b :: rest)).2 = rest.length + 1) :
    p.Scan (b :: rest) = scanStep p (decodeRune (b :: rest)).1 (decodeRune (b :: rest)).2 := by
  rw [scan_cons p b rest hne]
  have hdrop : (b :: rest).drop (decodeRune (b :: rest)).2 = [] := by
    apply List.drop_eq_nil_of_le
    simp [hlen]
  rw [hdrop]
  unfold Position.Scan
  rw [if_neg (by simpa using scanStep_ne p _ _ hne)]
  rfl

theorem rewind_offset (p : Position) (b r : Int) (p' : Position)
    (h : p.Rewind b r = .ok p') : p'.offset = p.offset - b := by
  unfold Position.Rewind at h
  split at h
  · next hbr =>
    simp only [Except.ok.injEq] at h
    subst h
    omega
  split at h
  · simp at h
  split at h
  · simp at h
  split at h
  · next hb =>
    simp only [Except.ok.injEq] at h
    subst h
    simp [Position.Reset]
    omega
  · split at h
    · next bb rr rest bRew rRew heq =>
      split at h
      · simp only [Except.ok.injEq] at h
        subst h
        simp
      · simp at h
    · simp at h

theorem posWF_offset_nonneg (p : Position) (hp : PosWF p) : 0 ≤ p.offset := by
  obtain ⟨hlen, hent, hoff⟩ := hp
  have hsum : 0 ≤ p.bytesPerLine.sum := by
    apply List.sum_nonneg
    intro b hb
    rcases hzip : p.runesPerLine with _ | ⟨r0, rs⟩
    · rw [hzip] at hlen
      simp at hlen
      rw [List.length_eq_zero.mp hlen.symm] at hb
      simp at hb
    · -- every byte entry is the first component of a zip entry
      have : ∃ x ∈ p.bytesPerLine.zip p.runesPerLine, x.1 = b := by
        have hlen2 : p.bytesPerLine.length ≤ p.runesPerLine.length := by omega
        obtain ⟨i, hi, hib⟩ := List.mem_iff_getElem.mp hb
        have hiz : i < (p.bytesPerLine.zip p.runesPerLine).length := by
          simp [List.length_zip]
          omega
        refine ⟨(p.bytesPerLine.zip p.runesPerLine).get ⟨i, hiz⟩, ?_, ?_⟩
        · rw [List.get_eq_getElem]
          exact List.getElem_mem _
        · rw [List.get_eq_getElem]
          simp [List.getElem_zip, hib]
      obtain ⟨x, hx, hxb⟩ := this
      have := hent x hx
      omega
  rcases hb : p.bytesPerLine with _ | ⟨b0, bs⟩
  · rw [hb] at hoff
    simp at hoff
    omega
  · rw [hb] at hoff hsum
    rw [hoff]
    simp only [List.length_cons]
    have : ¬ (b0 :: bs) = [] := by simp
    rw [if_neg this]
    push_cast
    omega

theorem posWF_bytes_nonneg (p : Position) (hp : PosWF p) :
    ∀ b ∈ p.bytesPerLine, 0 ≤ b := by
  obtain ⟨hlen, hent, _⟩ := hp
  intro b hb
  obtain ⟨i, hi, hib⟩ := List.mem_iff_getElem.mp hb
  have hiz : i < (p.bytesPerLine.zip p.runesPerLine).length := by
    simp only [List.length_zip]
    omega
  have hmem : (p.bytesPerLine.zip p.runesPerLine).get ⟨i, hiz⟩
      ∈ p.bytesPerLine.zip p.runesPerLine := by
    rw [List.get_eq_getElem]
    exact List.getElem_mem _
  have := hent _ hmem
  rw [List.get_eq_getElem, List.getElem_zip] at this
  simp only at this
  rw [hib] at this
  omega

/-- Undoing exactly one scanned decode unit restores the observable
position: `Rewind(size, 1)` after a `scanStep` of that unit succeeds and
brings line, column and offset back to their prior values. -/
theorem rewind_scan_unit (p : Position) (c : Int) (s : Nat) (hp : PosWF p)
    (hne : p.runesPerLine ≠ []) (hs : 1 ≤ s) (hnl : c = 10 → s = 1) :
    ∃ p', (scanStep p c s).Rewind (s : Int) 1 = .ok p' ∧
      p'.line = p.line ∧ p'.column = p.column ∧ p'.offset = p.offset := by
  have hoff0 : 0 ≤ p.offset := posWF_offset_nonneg p hp
  have hbnn := posWF_bytes_nonneg p hp
  obtain ⟨rpl, bpl, off⟩ := p
  obtain ⟨hlen, hent, hoff⟩ := hp
  simp only at hlen hent hoff hne hoff0 hbnn ⊢
  rcases rpl with _ | ⟨r0, rs⟩
  · exact absurd rfl hne
  rcases bpl with _ | ⟨b0, bs⟩
  · simp at hlen
  have hhead : 0 ≤ r0 ∧ r0 ≤ b0 := by simpa using hent (b0, r0) (by simp)
  have hlen' : rs.length = bs.length := by simpa using hlen
  have hmapfst : (bs.zip rs).map Prod.fst = bs :=
    List.map_fst_zip bs rs (by omega)
  have hmapsnd : (bs.zip rs).map Prod.snd = rs :=
    List.map_snd_zip bs rs (by omega)
  rw [if_neg (by simp)] at hoff
  have hb0 : 0 ≤ b0 := hbnn b0 (by simp)
  have hbssum : 0 ≤ bs.sum :=
    List.sum_nonneg (fun b hb => hbnn b (by simp [hb]))
  by_cases hzero : off = 0
  · have hbs : bs = [] := by
      rcases bs with _ | ⟨b1, bs'⟩
      · rfl
      · exfalso
        simp only [List.sum_cons, List.length_cons] at hoff
        push_cast at hoff
        have hb1 : 0 ≤ b1 := hbnn b1 (by simp)
        have hbssum' : 0 ≤ bs'.sum :=
          List.sum_nonneg (fun b hb => hbnn b (by simp [hb]))
        omega
    subst hbs
    have hb00 : b0 = 0 := by
      simp only [List.sum_cons, List.length_cons] at hoff
      push_cast at hoff
      simp at hoff
      omega
    have hr0 : r0 = 0 := by omega
    have hrs : rs = [] := List.length_eq_zero.mp (by simpa using hlen')
    subst hb00 hr0 hrs hzero
    by_cases hc : c = 10
    · have h1 : s = 1 := hnl hc
      subst h1
      refine ⟨⟨[], [], 0⟩, ?_, by simp [Position.line], by
        simp [Position.column], by simp⟩
      unfold scanStep
      rw [if_pos hc]
      unfold Position.Rewind
      rw [if_neg (by omega), if_neg (by omega), if_neg (by norm_num),
          if_pos (by norm_num)]
      rfl
    · refine ⟨⟨[], [], 0⟩, ?_, by simp [Position.line], by
        simp [Position.column], by simp⟩
      unfold scanStep
      rw [if_neg hc]
      show Position.Rewind ⟨[0 + 1], [0 + (s : Int)], 0 + (s : Int)⟩ _ _ = _
      unfold Position.Rewind
      rw [if_neg (by omega), if_neg (by omega), if_neg (by simp), if_pos (by simp)]
      rfl
  · have hoffpos : 0 < off := by omega
    by_cases hc : c = 10
    · have h1 : s = 1 := hnl hc
      subst h1
      refine ⟨⟨r0 :: rs, b0 :: bs, off⟩, ?_, rfl, rfl, rfl⟩
      unfold scanStep
      rw [if_pos hc]
      unfold Position.Rewind
      rw [if_neg (by omega), if_neg (by omega), if_neg (by push_cast; omega),
          if_neg (by push_cast; omega)]
      have hwalk : rewindWalk 1 ((((0 : Int) :: b0 :: bs)).zip ((0 : Int) :: r0 :: rs)) 0 0
          = some ((b0, r0) :: bs.zip rs, 1, 1) := by
        simp only [List.zip_cons_cons]
        unfold rewindWalk
        rw [if_pos (by omega), if_neg (by omega)]
        unfold rewindWalk
        rw [if_neg (by omega)]
        norm_num
      simp only [Nat.cast_one]
      rw [hwalk]
      show (if b0 ≥ 1 - 1 then _ else Except.error PosErr.failed) = _
      rw [if_pos (by omega)]
      simp only [Except.ok.injEq, Position.mk.injEq, List.cons.injEq, hmapfst, hmapsnd]
      refine ⟨⟨by omega, trivial⟩, ⟨by omega, trivial⟩, by push_cast; omega⟩
    · refine ⟨⟨r0 :: rs, b0 :: bs, off⟩, ?_, rfl, rfl, rfl⟩
      unfold scanStep
      rw [if_neg hc]
      show Position.Rewind ⟨(r0 + 1) :: rs, (b0 + (s : Int)) :: bs, off + (s : Int)⟩ _ _ = _
      unfold Position.Rewind
      rw [if_neg (by omega), if_neg (by omega), if_neg (by push_cast; omega),
          if_neg (by push_cast; omega)]
      have hwalk : rewindWalk (s : Int)
          ((((b0 + (s : Int)) :: bs)).zip ((r0 + 1) :: rs)) 0 0
          = some (((b0 + (s : Int)), (r0 + 1)) :: bs.zip rs, 0, 0) := by
        simp only [List.zip_cons_cons]
        unfold rewindWalk
        rw [if_pos (by omega), if_pos (by omega)]
      dsimp only
      rw [hwalk]
      show (if b0 + (s : Int) ≥ (s : Int) - 0 then _ else Except.error PosErr.failed) = _
      rw [if_pos (by omega)]
      simp only [Except.ok.injEq, Position.mk.injEq, List.cons.injEq, hmapfst, hmapsnd]
      refine ⟨⟨by omega, trivial⟩, ⟨by omega, trivial⟩, by push_cast; omega⟩

/-- A well-formed position with at least one scanned byte can always
rewind exactly one byte and one rune; the offset decreases by one. -/
theorem rewind_one (p : Position) (hp : PosWF p) (hoff1 : 1 ≤ p.offset) :
    ∃ p', p.Rewind 1 1 = .ok p' ∧ p'.offset = p.offset - 1 := by
  by_cases hfull : (1 : Int) = p.offset
  · refine ⟨p.Reset, ?_, by simp [Position.Reset]; omega⟩
    unfold Position.Rewind
    rw [if_neg (by omega), if_neg (by omega), if_neg (by omega), if_pos hfull]
  · have hbnn := posWF_bytes_nonneg p hp
    obtain ⟨rpl, bpl, off⟩ := p
    obtain ⟨hlen, hent, hoff⟩ := hp
    simp only at hlen hent hoff hoff1 hbnn hfull ⊢
    rcases bpl with _ | ⟨b0, bs⟩
    · simp at hoff
      omega
    rcases rpl with _ | ⟨r0, rs⟩
    · simp at hlen
    rw [if_neg (by simp)] at hoff
    have hlen' : rs.length = bs.length := by simpa using hlen
    have hb0 : 0 ≤ b0 := hbnn b0 (by simp)
    by_cases hb01 : 1 ≤ b0
    · refine ⟨⟨(r0 - 1) :: (bs.zip rs).map Prod.snd,
               (b0 - 1) :: (bs.zip rs).map Prod.fst, off - 1⟩, ?_, by simp⟩
      unfold Position.Rewind
      dsimp only
      rw [if_neg (by omega), if_neg (by omega), if_neg (by omega), if_neg (by omega)]
      simp only [List.zip_cons_cons]
      have hwalk : rewindWalk 1 ((b0, r0) :: bs.zip rs) 0 0
          = some ((b0, r0) :: bs.zip rs, 0, 0) := by
        unfold rewindWalk
        rw [if_pos (by omega), if_pos (by omega)]
      rw [hwalk]
      show (if b0 ≥ 1 - 0 then _ else Except.error PosErr.failed) = _
      rw [if_pos (by omega)]
      simp only [Except.ok.injEq, Position.mk.injEq]
      refine ⟨by norm_num, by norm_num, by norm_num⟩
    · -- the current record holds no byte: it is popped (b0 = 0), and the
      -- previous record must exist since the offset is positive
      have hb00 : b0 = 0 := by omega
      subst hb00
      rcases bs with _ | ⟨b1, bs'⟩
      · exfalso
        simp at hoff
        omega
      rcases rs with _ | ⟨r1, rs'⟩
      · simp at hlen'
      have hb1 : 0 ≤ b1 := hbnn b1 (by simp)
      refine ⟨⟨(r1 - (1 - (r0 + 1))) :: (bs'.zip rs').map Prod.snd,
               (b1 - 0) :: (bs'.zip rs').map Prod.fst, off - 1⟩, ?_, by simp⟩
      unfold Position.Rewind
      dsimp only
      rw [if_neg (by omega), if_neg (by omega), if_neg (by omega), if_neg (by omega)]
      simp only [List.zip_cons_cons]
      have hwalk : rewindWalk 1 (((0 : Int), r0) :: (b1, r1) :: bs'.zip rs') 0 0
          = some ((b1, r1) :: bs'.zip rs', 0 + 0 + 1, 0 + r0 + 1) := by
        unfold rewindWalk
        rw [if_pos (by omega), if_neg (by omega)]
        unfold rewindWalk
        rw [if_neg (by omega)]
      rw [hwalk]
      show (if b1 ≥ 1 - (0 + 0 + 1) then _ else Except.error PosErr.failed) = _
      rw [if_pos (by omega)]
      simp only [Except.ok.injEq, Position.mk.injEq]
      refine ⟨by norm_num, by norm_num, by norm_num⟩

/-- The reader's error values: `io.EOF`, `io.ErrNoProgress`, the invalid
`fillAtLeast` size, the package sentinels, `bufio`'s unread errors, the
two `Seek` errors, and a wrapped `position.Rewind` error. -/
inductive Err
  | eof
  | noProgress
  | invalidSize
  | bufferTooSmall
  | seekOutOfBuffer
  | invalidUnreadRune
  | invalidUnreadByte
  | negativePosition
  | invalidWhence
  | posRewind (e : PosErr)
deriving DecidableEq

/-- `io.SeekStart`, `io.SeekCurrent`, `io.SeekEnd`. -/
inductive Whence
  | seekStart
  | seekCurrent
  | seekEnd
deriving DecidableEq

/-- The `TextReader` state: the byte source (`src` is the list of bytes
the wrapped reader has not yet delivered), the owned `Position`, the two
undo markers (`-1` = invalid), the fixed capacity, the buffer (a list of
exactly `capacity` bytes) and the read/write cursors. -/
structure TextReader where
  src : List Nat
  pos : Position
  lastRuneSize : Int
  lastByte : Int
  capacity : Nat
  buf : List Nat
  r : Nat
  w : Nat
deriving DecidableEq

/-- `NewWithCapacity`: the capacity is clamped up to `utf8.UTFMax` (4). -/
def TextReader.NewWithCapacity (src : List Nat) (capacity : Nat) : TextReader :=
  let cap := if capacity < 4 then 4 else capacity
  ⟨src, Position.New, -1, -1, cap, List.replicate cap 0, 0, 0⟩

/-- `New`: the default capacity is 64 KiB. -/
def TextReader.New (src : List Nat) : TextReader :=
  TextReader.NewWithCapacity src (64 * 1024)

/-- The unread buffered window `buf[r:w]`. -/
def window (t : TextReader) : List Nat := (t.buf.take t.w).drop t.r

/-- The bytes the reader has not yet delivered to its caller: the
buffered window followed by the source's remainder. -/
def stream (t : TextReader) : List Nat := window t ++ t.src

/-- Writing `chunk` into the buffer at index `w` (Go
`copy(buf[w:], chunk)` with `w + chunk.length ≤ buf.length`). -/
def listWrite (buf : List Nat) (w : Nat) (chunk : List Nat) : List Nat :=
  buf.take w ++ chunk ++ buf.drop (w + chunk.length)

/-- The read loop of `fillAtLeast`: read from the source into
`buf[w:capacity]` until `n` unread bytes are available or the source
errs.  One `Read` on the list source delivers
`min (capacity - w) src.length` bytes, and `(0, io.EOF)` when the source
is empty; a `(0, nil)` read is turned into `io.ErrNoProgress` as in the
Go code.  The fuel only bounds the iteration count (each iteration
delivers at least one byte or stops), so `src.length + 1` is enough; the
fuel-0 arm is unreachable then. -/
def fillLoopF : Nat → Nat → TextReader → TextReader × Option Err
  | 0, _, t => (t, none)
  | fuel + 1, n, t =>
    if t.w - t.r < n then
      match t.src with
      | [] => (t, some .eof)
      | _ :: _ =>
        let k := min (t.capacity - t.w) t.src.length
        if k = 0 then (t, some .noProgress)
        else
          fillLoopF fuel n
            { t with src := t.src.drop k,
                     buf := listWrite t.buf t.w (t.src.take k),
                     w := t.w + k }
    else (t, none)

/-- `fillAtLeast(n)`: validate `n`, return early when enough bytes are
buffered, compact (left-shift the window to index 0) when satisfying `n`
would write past `capacity`, then run the read loop.  Returns
`(state, met, err)` as the Go `(bool, error)`. -/
def TextReader.fillAtLeast (t : TextReader) (n : Int) : TextReader × Bool × Option Err :=
  if n < 0 then (t, false, some .invalidSize)
  else if n = 0 then (t, true, none)
  else if (t.capacity : Int) < n then (t, false, some .bufferTooSmall)
  else
    let n' := n.toNat
    if n' ≤ t.w - t.r then (t, true, none)
    else
      let t1 :=
        if t.capacity ≤ t.r + n' then
          { t with buf := window t ++ t.buf.drop (t.w - t.r), w := t.w - t.r, r := 0 }
        else t
      let out := fillLoopF (t1.src.length + 1) n' t1
      match out.2 with
      | none => (out.1, true, none)
      | some e => (out.1, decide (n' ≤ out.1.w - out.1.r), some e)

/-- The body of `ReadRune` after the fill: end-of-buffer means `io.EOF`;
otherwise decode one code point from `buf[r:w]`, feed the consumed bytes
to `Scan`, advance `r`, and arm the rune undo marker.  An invalid
sequence decodes to `(RuneError, 1)` and is NOT an error. -/
def readRuneGo (t1 : TextReader) : TextReader × Except Err (Int × Nat) :=
  if t1.w ≤ t1.r then (t1, .error .eof)
  else
    let d := decodeRune (window t1)
    ({ t1 with pos := t1.pos.Scan ((t1.buf.take (t1.r + d.2)).drop t1.r),
               r := t1.r + d.2, lastRuneSize := (d.2 : Int), lastByte := -1 },
     .ok d)

/-- `ReadRune`: `fillAtLeast(utf8.UTFMax)` tolerating `io.EOF`, then the
decode body. -/
def TextReader.ReadRune (t : TextReader) : TextReader × Except Err (Int × Nat) :=
  match t.fillAtLeast 4 with
  | (t1, _, some e) => if e = .eof then readRuneGo t1 else (t1, .error e)
  | (t1, _, none) => readRuneGo t1

/-- `UnreadRune`: valid only when the rune marker is armed and `r` is at
least the marked size; rewinds the position by `(size, 1)`, moves `r`
back and clears both markers.  Fails with `bufio.ErrInvalidUnreadRune`
otherwise, changing nothing. -/
def TextReader.UnreadRune (t : TextReader) : TextReader × Option Err :=
  if t.lastRuneSize < 0 ∨ (t.r : Int) < t.lastRuneSize then
    (t, some .invalidUnreadRune)
  else
    match t.pos.Rewind t.lastRuneSize 1 with
    | .error e => (t, some (.posRewind e))
    | .ok p' =>
      ({ t with pos := p', r := t.r - t.lastRuneSize.toNat,
                lastRuneSize := -1, lastByte := -1 }, none)

/-- The body of `ReadByte` after the fill. -/
def readByteGo (t1 : TextReader) : TextReader × Except Err Nat :=
  if t1.w ≤ t1.r then (t1, .error .eof)
  else
    let b := t1.buf.getD t1.r 0
    ({ t1 with pos := t1.pos.Scan ((t1.buf.take (t1.r + 1)).drop t1.r),
               r := t1.r + 1, lastRuneSize := -1, lastByte := (b : Int) },
     .ok b)

/-- `ReadByte`: `fillAtLeast(1)` tolerating `io.EOF`, then one byte. -/
def TextReader.ReadByte (t : TextReader) : TextReader × Except Err Nat :=
  match t.fillAtLeast 1 with
  | (t1, _, some e) => if e = .eof then readByteGo t1 else (t1, .error e)
  | (t1, _, none) => readByteGo t1

/-- `UnreadByte`: valid only when the byte marker is armed and `r > 0`;
rewinds the position by `(1, 1)`, moves `r` back one byte and clears both
markers. -/
def TextReader.UnreadByte (t : TextReader) : TextReader × Option Err :=
  if t.lastByte < 0 ∨ t.r = 0 then (t, some .invalidUnreadByte)
  else
    match t.pos.Rewind 1 1 with
    | .error e => (t, some (.posRewind e))
    | .ok p' =>
      ({ t with pos := p', r := t.r - 1, lastByte := -1, lastRuneSize := -1 }, none)

/-- The epilogue of `Read`: reset the rune marker, arm the byte marker
with `buf[r-1]` when `r > 0`, and report the terminal error only when no
byte at all was produced. -/
def readFinish (t : TextReader) (acc : List Nat) (readErr : Option Err) :
    TextReader × List Nat × Option Err :=
  let t1 := { t with lastRuneSize := -1,
                     lastByte := if 0 < t.r then ((t.buf.getD (t.r - 1) 0 : Nat) : Int)
                                 else -1 }
  if acc.length = 0 ∧ readErr.isSome then (t1, acc, readErr)
  else (t1, acc, none)

/-- The loop of `Read`, accumulating the produced bytes in `acc`:
1. drain buffered bytes into the output;
2. stop on a pending source error;
3. (when the drain completed the request, Go calls `fillAtLeast(0)`,
   a no-op, and the loop condition ends the loop: exit directly);
4. requests still larger than the whole buffer bypass it: read straight
   from the source, scan, reset the buffer and both markers, stop;
5. otherwise `fillAtLeast` the missing amount and repeat.
The fuel bounds the iteration count (every iteration consumes source
bytes, records the first source error, or completes the request), so
`Read`'s `2 * src.length + 4` is enough; the fuel-0 arm is unreachable
then. -/
def readLoopF : Nat → Nat → TextReader → List Nat → Option Err →
    TextReader × List Nat × Option Err
  | 0, _, t, acc, readErr => readFinish t acc readErr
  | fuel + 1, needed, t, acc, readErr =>
    if acc.length < needed then
      let drained :=
        if 0 < t.w - t.r then
          let n := min (needed - acc.length) (t.w - t.r)
          let chunk := (t.buf.take (t.r + n)).drop t.r
          ({ t with pos := t.pos.Scan chunk, r := t.r + n }, acc ++ chunk)
        else (t, acc)
      let t1 := drained.1
      let acc1 := drained.2
      if readErr.isSome then readFinish t1 acc1 readErr
      else if needed ≤ acc1.length then readFinish t1 acc1 readErr
      else if t1.capacity < needed - acc1.length then
        match t1.src with
        | [] =>
          readFinish { t1 with pos := t1.pos.Scan [], r := 0, w := 0,
                               lastRuneSize := -1, lastByte := -1 } acc1 (some .eof)
        | _ :: _ =>
          let k := min (needed - acc1.length) t1.src.length
          let chunk := t1.src.take k
          readFinish { t1 with src := t1.src.drop k, pos := t1.pos.Scan chunk,
                               r := 0, w := 0, lastRuneSize := -1, lastByte := -1 }
            (acc1 ++ chunk) none
      else
        let fr := t1.fillAtLeast ((needed - acc1.length : Nat) : Int)
        readLoopF fuel needed fr.1 acc1 fr.2.2
    else readFinish t acc readErr

/-- `Read(p)` with `needed = len(p)`: returns the new state, the bytes
produced, and the error (reported only when nothing was produced). -/
def TextReader.Read (t : TextReader) (needed : Nat) :
    TextReader × List Nat × Option Err :=
  readLoopF (2 * t.src.length + 4) needed t [] none

/-- The `whence` dispatch of `Seek`: the new buffer index `newR`.
`io.SeekStart` interprets the target as an absolute stream offset and
translates it by the stream offset of the buffer's window start
(`pos.Offset() - r`); a target before the window start is unreachable
(discarded by compaction). -/
def seekResolve (t : TextReader) (offset : Int) (whence : Whence) : Except Err Int :=
  match whence with
  | .seekStart =>
    if offset < 0 then .error .negativePosition
    else if offset < t.pos.offset - (t.r : Int) then .error .seekOutOfBuffer
    else .ok (offset - (t.pos.offset - (t.r : Int)))
  | .seekCurrent => .ok ((t.r : Int) + offset)
  | .seekEnd => .ok ((t.w : Int) + offset)

/-- The tail of a forward seek after the optional fill: the target must
be inside the (possibly extended) window; the traversed bytes are fed to
`Scan`, both undo markers are cleared, and the new absolute position is
returned. -/
def seekFwdGo (t1 : TextReader) (relInt : Nat) : TextReader × Except Err Int :=
  if t1.w < t1.r + relInt then (t1, .error .seekOutOfBuffer)
  else
    let p' := t1.pos.Scan ((t1.buf.take (t1.r + relInt)).drop t1.r)
    ({ t1 with pos := p', r := t1.r + relInt, lastRuneSize := -1, lastByte := -1 },
     .ok p'.offset)

/-- `Seek(offset, whence)`: resolve the target buffer index, reject a
negative or out-of-capacity target, return the unchanged offset when the
target equals the current position; seek forward by filling and
scanning, or backward by counting the runes of the skipped-over window
span and rewinding the position.  Only the buffered window is reachable;
the underlying source is never sought. -/
def TextReader.Seek (t : TextReader) (offset : Int) (whence : Whence) :
    TextReader × Except Err Int :=
  match seekResolve t offset whence with
  | .error e => (t, .error e)
  | .ok newR =>
    if newR < 0 then (t, .error .negativePosition)
    else
      let rel := newR - (t.r : Int)
      if rel = 0 then (t, .ok t.pos.offset)
      else if (t.capacity : Int) < newR then (t, .error .seekOutOfBuffer)
      else if 0 < rel then
        if (t.capacity : Int) < rel then (t, .error .seekOutOfBuffer)
        else
          let relInt := rel.toNat
          let fr :=
            if t.w - t.r < relInt then
              let f := t.fillAtLeast (relInt : Int)
              (f.1, f.2.2)
            else (t, none)
          match fr.2 with
          | some e => if e = .eof then seekFwdGo fr.1 relInt else (fr.1, .error e)
          | none => seekFwdGo fr.1 relInt
      else
        let newRInt := newR.toNat
        let rc := runeCount ((t.buf.take t.r).drop newRInt)
        match t.pos.Rewind (-rel) (rc : Int) with
        | .error e => (t, .error (.posRewind e))
        | .ok p' =>
          ({ t with pos := p', r := newRInt, lastRuneSize := -1, lastByte := -1 },
           .ok p'.offset)

/-- `Pos()`: an independent snapshot of the current position
(`pos.Copy()`). -/
def TextReader.Pos (t : TextReader) : Position := t.pos.Copy

/-- Successive `ReadRune` calls until the first error, collecting the
code points.  The fuel bounds the number of reads (each successful read
consumes at least one byte of `stream`), so `Read`-ing with fuel
`stream-length + 1` collects everything. -/
def readRunesFuel : Nat → TextReader → List Int
  | 0, _ => []
  | fuel + 1, t =>
    match t.ReadRune with
    | (t', .ok d) => d.1 :: readRunesFuel fuel t'
    | (_, .error _) => []

/-- All code points obtainable from the reader by successive `ReadRune`
calls until end-of-stream. -/
def readAllRunes (t : TextReader) : List Int :=
  readRunesFuel (t.src.length + (t.w - t.r) + 1) t

/-- Reader well-formedness: ordered cursors inside the buffer, the
buffer exactly `capacity` long, and a capacity of at least `utf8.UTFMax`
(guaranteed by the constructor's clamp). -/
def RWF (t : TextReader) : Prop :=
  t.r ≤ t.w ∧ t.w ≤ t.capacity ∧ t.buf.length = t.capacity ∧ 4 ≤ t.capacity

instance (t : TextReader) : Decidable (RWF t) := by
  unfold RWF; infer_instance

example : ((TextReader.NewWithCapacity [97, 98, 99] 4).Read 2).2.1 = [97, 98] := by
  decide
example : ((TextReader.NewWithCapacity [97, 98, 99] 4).Read 2).1.pos.offset = 2 := by
  decide
example : readAllRunes (TextReader.NewWithCapacity [97, 228, 189, 160] 4)
    = [97, 0x4F60] := by decide
example : readAllRunes (TextReader.NewWithCapacity [228, 189, 160, 229, 165, 189] 4)
    = [0x4F60, 0x597D] := by decide
example : readAllRunes (TextReader.NewWithCapacity [97, 0xFF, 98] 4)
    = [97, 0xFFFD, 98] := by decide
example :
    ((TextReader.NewWithCapacity [97, 98, 99, 100, 101] 4).Seek 2 Whence.seekStart).2
      = .ok 2 := by decide

theorem listWrite_length (buf : List Nat) (w : Nat) (chunk : List Nat)
    (h : w + chunk.length ≤ buf.length) :
    (listWrite buf w chunk).length = buf.length := by
  unfold listWrite
  simp only [List.length_append, List.length_take, List.length_drop]
  omega

theorem window_length (t : TextReader) (h1 : t.r ≤ t.w) (h2 : t.w ≤ t.buf.length) :
    (window t).length = t.w - t.r := by
  unfold window
  simp only [List.length_drop, List.length_take]
  omega

theorem listWrite_window (buf : List Nat) (r w : Nat) (chunk : List Nat)
    (h1 : r ≤ w) (h2 : w ≤ buf.length) (h3 : w + chunk.length ≤ buf.length) :
    ((listWrite buf w chunk).take (w + chunk.length)).drop r
      = (buf.take w).drop r ++ chunk := by
  unfold listWrite
  have hA : (buf.take w).length = w := by
    simp only [List.length_take]
    omega
  rw [List.append_assoc]
  rw [List.take_append_eq_append_take]
  rw [List.take_all_of_le (by omega : (buf.take w).length ≤ w + chunk.length)]
  rw [hA]
  have he : w + chunk.length - w = chunk.length := by omega
  rw [he]
  rw [List.take_append_eq_append_take]
  rw [List.take_all_of_le (le_refl chunk.length)]
  simp only [Nat.sub_self, List.take_zero, List.append_nil]
  rw [List.drop_append_of_le_length (by omega)]

theorem fillLoopF_succ (fuel n : Nat) (t : TextReader) :
    fillLoopF (fuel + 1) n t =
      if t.w - t.r < n then
        match t.src with
        | [] => (t, some .eof)
        | _ :: _ =>
          if min (t.capacity - t.w) t.src.length = 0 then (t, some .noProgress)
          else
            fillLoopF fuel n
              { t with src := t.src.drop (min (t.capacity - t.w) t.src.length),
                       buf := listWrite t.buf t.w
                         (t.src.take (min (t.capacity - t.w) t.src.length)),
                       w := t.w + min (t.capacity - t.w) t.src.length }
      else (t, none) := rfl

theorem fillLoopF_spec : ∀ (fuel n : Nat) (t : TextReader),
    t.src.length < fuel → t.r ≤ t.w → t.w ≤ t.capacity → t.buf.length = t.capacity →
    t.r + n ≤ t.capacity →
    (fillLoopF fuel n t).1.r = t.r ∧
    (fillLoopF fuel n t).1.capacity = t.capacity ∧
    (fillLoopF fuel n t).1.pos = t.pos ∧
    (fillLoopF fuel n t).1.lastRuneSize = t.lastRuneSize ∧
    (fillLoopF fuel n t).1.lastByte = t.lastByte ∧
    (fillLoopF fuel n t).1.r ≤ (fillLoopF fuel n t).1.w ∧
    (fillLoopF fuel n t).1.w ≤ t.capacity ∧
    (fillLoopF fuel n t).1.buf.length = t.capacity ∧
    stream (fillLoopF fuel n t).1 = stream t ∧
    ((fillLoopF fuel n t).2 = none ∨ (fillLoopF fuel n t).2 = some .eof) ∧
    ((fillLoopF fuel n t).2 = none →
      n ≤ (fillLoopF fuel n t).1.w - (fillLoopF fuel n t).1.r) ∧
    ((fillLoopF fuel n t).2 = some .eof → (fillLoopF fuel n t).1.src = []) ∧
    (fillLoopF fuel n t).1.src.length ≤ t.src.length := by
  intro fuel
  induction fuel with
  | zero =>
    intro n t hfuel
    omega
  | succ fuel ih =>
    intro n t hfuel h1 h2 h3 h4
    by_cases hcond : t.w - t.r < n
    · rcases hsrc : t.src with _ | ⟨b, srest⟩
      · have hred : fillLoopF (fuel + 1) n t = (t, some Err.eof) := by
          rw [fillLoopF_succ, if_pos hcond, hsrc]
        rw [hred]
        refine ⟨rfl, rfl, rfl, rfl, rfl, h1, h2, h3, rfl, Or.inr rfl, ?_, ?_, ?_⟩
        · intro h
          exact absurd h (by simp)
        · intro _
          exact hsrc
        · simp [hsrc]
      · have hwlt : t.w < t.capacity := by omega
        have hk : ¬ (min (t.capacity - t.w) (b :: srest).length = 0) := by
          simp only [List.length_cons]
          omega
        set k := min (t.capacity - t.w) (b :: srest).length with hkdef
        set t' : TextReader :=
          { t with src := (b :: srest).drop k,
                   buf := listWrite t.buf t.w ((b :: srest).take k),
                   w := t.w + k } with ht'
        have hred : fillLoopF (fuel + 1) n t = fillLoopF fuel n t' := by
          rw [fillLoopF_succ, if_pos hcond]
          simp only [hsrc]
          rw [if_neg hk]
        rw [hred]
        have hkle : k ≤ t.capacity - t.w := by omega
        have hksrc : k ≤ (b :: srest).length := by omega
        have hkpos : 1 ≤ k := by omega
        have hchunk : ((b :: srest).take k).length = k := by
          simp only [List.length_take]
          omega
        have hfits : t.w + ((b :: srest).take k).length ≤ t.buf.length := by
          rw [hchunk]
          omega
        have hfuel2 : (b :: srest).length < fuel + 1 := by
          rw [← hsrc]
          exact hfuel
        have hp1 : t'.src.length < fuel := by
          show ((b :: srest).drop k).length < fuel
          simp only [List.length_drop]
          simp only [List.length_cons] at hfuel2 hk ⊢
          omega
        have hp2 : t'.r ≤ t'.w := by
          show t.r ≤ t.w + k
          omega
        have hp3 : t'.w ≤ t'.capacity := by
          show t.w + k ≤ t.capacity
          omega
        have hp4 : t'.buf.length = t'.capacity := by
          show (listWrite t.buf t.w ((b :: srest).take k)).length = t.capacity
          rw [listWrite_length _ _ _ hfits]
          exact h3
        have hp5 : t'.r + n ≤ t'.capacity := by
          show t.r + n ≤ t.capacity
          omega
        have hstream : stream t' = stream t := by
          unfold stream window
          show ((listWrite t.buf t.w ((b :: srest).take k)).take (t.w + k)).drop t.r
              ++ (b :: srest).drop k = (t.buf.take t.w).drop t.r ++ t.src
          have hwin := listWrite_window t.buf t.r t.w ((b :: srest).take k) h1
            (by omega) hfits
          rw [hchunk] at hwin
          rw [hwin]
          rw [List.append_assoc]
          rw [List.take_append_drop]
          rw [hsrc]
        obtain ⟨c1, c2, c3, c4, c5, c6, c7, c8, c9, c10, c11, c12, c13⟩ :=
          ih n t' hp1 hp2 hp3 (by rw [hp4]) hp5
        refine ⟨by rw [c1], by rw [c2], by rw [c3], by rw [c4], by rw [c5], c6,
          by simpa using c7, by simpa using c8, by rw [c9, hstream], c10, c11, c12, ?_⟩
        calc (fillLoopF fuel n t').1.src.length ≤ t'.src.length := c13
          _ ≤ (b :: srest).length := by
            show ((b :: srest).drop k).length ≤ (b :: srest).length
            simp only [List.length_drop]
            omega
    · have hred : fillLoopF (fuel + 1) n t = (t, none) := by
        rw [fillLoopF_succ, if_neg hcond]
      rw [hred]
      refine ⟨rfl, rfl, rfl, rfl, rfl, h1, h2, h3, rfl, Or.inl rfl, ?_, ?_, ?_⟩
      · intro _
        show n ≤ t.w - t.r
        omega
      · intro h
        exact absurd h (by simp)
      · exact le_refl _

theorem fillLoopF_frame : ∀ (fuel n : Nat) (t : TextReader),
    (fillLoopF fuel n t).1.pos = t.pos ∧
    (fillLoopF fuel n t).1.lastRuneSize = t.lastRuneSize ∧
    (fillLoopF fuel n t).1.lastByte = t.lastByte ∧
    (fillLoopF fuel n t).1.capacity = t.capacity := by
  intro fuel
  induction fuel with
  | zero =>
    intro n t
    exact ⟨rfl, rfl, rfl, rfl⟩
  | succ fuel ih =>
    intro n t
    by_cases hcond : t.w - t.r < n
    · rcases hsrc : t.src with _ | ⟨b, srest⟩
      · have hred : fillLoopF (fuel + 1) n t = (t, some Err.eof) := by
          rw [fillLoopF_succ, if_pos hcond, hsrc]
        rw [hred]
        exact ⟨rfl, rfl, rfl, rfl⟩
      · by_cases hk : min (t.capacity - t.w) (b :: srest).length = 0
        · have hred : fillLoopF (fuel + 1) n t = (t, some Err.noProgress) := by
            rw [fillLoopF_succ, if_pos hcond]
            simp only [hsrc]
            rw [if_pos hk]
          rw [hred]
          exact ⟨rfl, rfl, rfl, rfl⟩
        · set k := min (t.capacity - t.w) (b :: srest).length with hkdef
          set t' : TextReader :=
            { t with src := (b :: srest).drop k,
                     buf := listWrite t.buf t.w ((b :: srest).take k),
                     w := t.w + k } with ht'
          have hred : fillLoopF (fuel + 1) n t = fillLoopF fuel n t' := by
            rw [fillLoopF_succ, if_pos hcond]
            simp only [hsrc]
            rw [if_neg hk]
          rw [hred]
          obtain ⟨d1, d2, d3, d4⟩ := ih n t'
          exact ⟨by rw [d1], by rw [d2], by rw [d3], by rw [d4]⟩
    · have hred : fillLoopF (fuel + 1) n t = (t, none) := by
        rw [fillLoopF_succ, if_neg hcond]
      rw [hred]
      exact ⟨rfl, rfl, rfl, rfl⟩

/-- `fillAtLeast` never touches the position, the undo markers or the
capacity (whatever the state). -/
theorem fillAtLeast_frame (t : TextReader) (n : Int) :
    (t.fillAtLeast n).1.pos = t.pos ∧
    (t.fillAtLeast n).1.lastRuneSize = t.lastRuneSize ∧
    (t.fillAtLeast n).1.lastByte = t.lastByte ∧
    (t.fillAtLeast n).1.capacity = t.capacity := by
  unfold TextReader.fillAtLeast
  by_cases h1 : n < 0
  · rw [if_pos h1]
    exact ⟨rfl, rfl, rfl, rfl⟩
  rw [if_neg h1]
  by_cases h2 : n = 0
  · rw [if_pos h2]
    exact ⟨rfl, rfl, rfl, rfl⟩
  rw [if_neg h2]
  by_cases h3 : (t.capacity : Int) < n
  · rw [if_pos h3]
    exact ⟨rfl, rfl, rfl, rfl⟩
  rw [if_neg h3]
  by_cases h4 : n.toNat ≤ t.w - t.r
  · rw [if_pos h4]
    exact ⟨rfl, rfl, rfl, rfl⟩
  rw [if_neg h4]
  by_cases h5 : t.capacity ≤ t.r + n.toNat
  · rw [if_pos h5]
    set tc : TextReader :=
      { t with buf := window t ++ t.buf.drop (t.w - t.r), w := t.w - t.r, r := 0 }
    obtain ⟨d1, d2, d3, d4⟩ := fillLoopF_frame (tc.src.length + 1) n.toNat tc
    rcases hout : (fillLoopF (tc.src.length + 1) n.toNat tc).2 with _ | e
    · simp only [hout]
      exact ⟨d1, d2, d3, d4⟩
    · simp only [hout]
      exact ⟨d1, d2, d3, d4⟩
  · rw [if_neg h5]
    obtain ⟨d1, d2, d3, d4⟩ := fillLoopF_frame (t.src.length + 1) n.toNat t
    rcases hout : (fillLoopF (t.src.length + 1) n.toNat t).2 with _ | e
    · simp only [hout]
      exact ⟨d1, d2, d3, d4⟩
    · simp only [hout]
      exact ⟨d1, d2, d3, d4⟩

/-- Specification of `fillAtLeast` under the reader well-formedness
invariant: the logical byte stream is preserved, the invariant is
maintained, errors are limited to `io.EOF`, success guarantees `n`
buffered bytes, and `io.EOF` means the source is exhausted.  In every
case at least `min n |stream|` bytes end up buffered. -/
theorem fillAtLeast_spec (t : TextReader) (n : Int) (h0 : 0 ≤ n)
    (hn : n ≤ (t.capacity : Int)) (hw : RWF t) :
    RWF (t.fillAtLeast n).1 ∧
    (t.fillAtLeast n).1.capacity = t.capacity ∧
    stream (t.fillAtLeast n).1 = stream t ∧
    ((t.fillAtLeast n).2.2 = none ∨ (t.fillAtLeast n).2.2 = some .eof) ∧
    ((t.fillAtLeast n).2.2 = none →
      n.toNat ≤ (t.fillAtLeast n).1.w - (t.fillAtLeast n).1.r) ∧
    ((t.fillAtLeast n).2.2 = some .eof → (t.fillAtLeast n).1.src = []) ∧
    min n.toNat (stream t).length ≤ (t.fillAtLeast n).1.w - (t.fillAtLeast n).1.r ∧
    (t.fillAtLeast n).1.src.length ≤ t.src.length := by
  obtain ⟨hw1, hw2, hw3, hw4⟩ := hw
  have hwin : (window t).length = t.w - t.r := window_length t hw1 (by omega)
  have hstreamlen : (stream t).length = (t.w - t.r) + t.src.length := by
    unfold stream
    rw [List.length_append, hwin]
  unfold TextReader.fillAtLeast
  rw [if_neg (by omega : ¬ n < 0)]
  by_cases h2 : n = 0
  · rw [if_pos h2]
    refine ⟨⟨hw1, hw2, hw3, hw4⟩, rfl, rfl, Or.inl rfl, ?_, ?_, ?_, le_refl _⟩
    · intro _
      simp [h2]
    · intro h
      exact absurd h (by simp)
    · simp [h2]
  rw [if_neg h2]
  rw [if_neg (by omega : ¬ (t.capacity : Int) < n)]
  have hn' : n.toNat ≤ t.capacity := by omega
  by_cases h4 : n.toNat ≤ t.w - t.r
  · rw [if_pos h4]
    refine ⟨⟨hw1, hw2, hw3, hw4⟩, rfl, rfl, Or.inl rfl, fun _ => h4, ?_, ?_, le_refl _⟩
    · intro h
      exact absurd h (by simp)
    · exact le_trans (min_le_left _ _) h4
  rw [if_neg h4]
  by_cases h5 : t.capacity ≤ t.r + n.toNat
  · rw [if_pos h5]
    set tc : TextReader :=
      { t with buf := window t ++ t.buf.drop (t.w - t.r), w := t.w - t.r, r := 0 }
      with htc
    have hc3 : tc.buf.length = t.capacity := by
      rw [htc]
      simp only [List.length_append, List.length_drop, hwin]
      omega
    have hcwin : window tc = window t := by
      unfold window
      rw [htc]
      simp only [List.drop_zero]
      rw [List.take_left' hwin]
      rfl
    have hcstream : stream tc = stream t := by
      unfold stream
      rw [hcwin]
    obtain ⟨s1, s2, s3, s4, s5, s6, s7, s8, s9, s10, s11, s12, s13⟩ :=
      fillLoopF_spec (tc.src.length + 1) n.toNat tc (by omega)
        (by simp [htc]) (by simp only [htc]; omega) hc3 (by simp only [htc]; omega)
    have hbound : min n.toNat (stream t).length ≤
        (fillLoopF (tc.src.length + 1) n.toNat tc).1.w -
          (fillLoopF (tc.src.length + 1) n.toNat tc).1.r := by
      rcases s10 with hh | hh
      · have := s11 hh
        exact le_trans (min_le_left _ _) this
      · have hsrc0 := s12 hh
        have hlen : (stream (fillLoopF (tc.src.length + 1) n.toNat tc).1).length
            = (stream t).length := by rw [s9, hcstream]
        have hsl : stream (fillLoopF (tc.src.length + 1) n.toNat tc).1
            = window (fillLoopF (tc.src.length + 1) n.toNat tc).1 := by
          unfold stream
          rw [hsrc0, List.append_nil]
        have hwl : (window (fillLoopF (tc.src.length + 1) n.toNat tc).1).length
            = (fillLoopF (tc.src.length + 1) n.toNat tc).1.w -
              (fillLoopF (tc.src.length + 1) n.toNat tc).1.r := by
          exact window_length _ s6 (by rw [s8]; exact s7)
        rw [hsl, hwl] at hlen
        rw [← hlen]
        exact min_le_right _ _
    rcases hout : (fillLoopF (tc.src.length + 1) n.toNat tc).2 with _ | e
    · dsimp only
      rw [hout]
      refine ⟨⟨s6, by rw [s2]; exact s7, by rw [s2]; exact s8, by rw [s2]; exact hw4⟩,
        s2, by rw [s9, hcstream], Or.inl rfl, fun _ => s11 hout, ?_, hbound, ?_⟩
      · intro h
        exact absurd h (by simp)
      · exact le_trans s13 (by simp [htc])
    · have he : e = Err.eof := by
        rcases s10 with hh | hh
        · rw [hout] at hh
          exact absurd hh (by simp)
        · rw [hout] at hh
          exact Option.some_injective _ hh
      subst he
      dsimp only
      rw [hout]
      refine ⟨⟨s6, by rw [s2]; exact s7, by rw [s2]; exact s8, by rw [s2]; exact hw4⟩,
        s2, by rw [s9, hcstream], Or.inr rfl, ?_, fun _ => s12 hout, hbound, ?_⟩
      · intro h
        exact absurd h (by simp)
      · exact le_trans s13 (by simp [htc])
  · rw [if_neg h5]
    obtain ⟨s1, s2, s3, s4, s5, s6, s7, s8, s9, s10, s11, s12, s13⟩ :=
      fillLoopF_spec (t.src.length + 1) n.toNat t (by omega) hw1 hw2 hw3 (by omega)
    have hbound : min n.toNat (stream t).length ≤
        (fillLoopF (t.src.length + 1) n.toNat t).1.w -
          (fillLoopF (t.src.length + 1) n.toNat t).1.r := by
      rcases s10 with hh | hh
      · have := s11 hh
        exact le_trans (min_le_left _ _) this
      · have hsrc0 := s12 hh
        have hlen : (stream (fillLoopF (t.src.length + 1) n.toNat t).1).length
            = (stream t).length := by rw [s9]
        have hsl : stream (fillLoopF (t.src.length + 1) n.toNat t).1
            = window (fillLoopF (t.src.length + 1) n.toNat t).1 := by
          unfold stream
          rw [hsrc0, List.append_nil]
        have hwl : (window (fillLoopF (t.src.length + 1) n.toNat t).1).length
            = (fillLoopF (t.src.length + 1) n.toNat t).1.w -
              (fillLoopF (t.src.length + 1) n.toNat t).1.r := by
          exact window_length _ s6 (by rw [s8]; exact s7)
        rw [hsl, hwl] at hlen
        rw [← hlen]
        exact min_le_right _ _
    rcases hout : (fillLoopF (t.src.length + 1) n.toNat t).2 with _ | e
    · dsimp only
      rw [hout]
      refine ⟨⟨s6, by rw [s2]; exact s7, by rw [s2]; exact s8, by rw [s2]; exact hw4⟩,
        s2, s9, Or.inl rfl, fun _ => s11 hout, ?_, hbound, s13⟩
      intro h
      exact absurd h (by simp)
    · have he : e = Err.eof := by
        rcases s10 with hh | hh
        · rw [hout] at hh
          exact absurd hh (by simp)
        · rw [hout] at hh
          exact Option.some_injective _ hh
      subst he
      dsimp only
      rw [hout]
      refine ⟨⟨s6, by rw [s2]; exact s7, by rw [s2]; exact s8, by rw [s2]; exact hw4⟩,
        s2, s9, Or.inr rfl, ?_, fun _ => s12 hout, hbound, s13⟩
      intro h
      exact absurd h (by simp)

theorem decodeRune_size_le_four (p : List Nat) : (decodeRune p).2 ≤ 4 := by
  rcases p with _ | ⟨b0, _ | ⟨b1, _ | ⟨b2, _ | ⟨b3, rest⟩⟩⟩⟩ <;>
    (simp only [decodeRune]; repeat' split) <;> norm_num

theorem stream_congr (a b : TextReader) (hbuf : a.buf = b.buf) (hr : a.r = b.r)
    (hww : a.w = b.w) (hsrc : a.src = b.src) : stream a = stream b := by
  unfold stream window
  rw [hbuf, hr, hww, hsrc]

theorem window_take_stream (t : TextReader) (h1 : t.r ≤ t.w)
    (h2 : t.w ≤ t.buf.length) :
    window t = (stream t).take (t.w - t.r) := by
  unfold stream
  rw [List.take_append_eq_append_take]
  rw [List.take_all_of_le (by rw [window_length t h1 h2])]
  rw [window_length t h1 h2, Nat.sub_self, List.take_zero, List.append_nil]

theorem stream_advance (t1 : TextReader) (p : Position) (m1 m2 : Int) (s : Nat)
    (h1 : t1.r ≤ t1.w) (h2 : t1.w ≤ t1.buf.length) (hs : s ≤ t1.w - t1.r) :
    stream { t1 with pos := p, r := t1.r + s, lastRuneSize := m1, lastByte := m2 }
      = (stream t1).drop s := by
  have hwin : (window t1).length = t1.w - t1.r := window_length t1 h1 h2
  unfold stream
  show (t1.buf.take t1.w).drop (t1.r + s) ++ t1.src = _
  have hd : (t1.buf.take t1.w).drop (t1.r + s) = (window t1).drop s := by
    unfold window
    rw [← List.drop_drop]
  rw [hd, ← List.drop_append_of_le_length (by omega)]

/-- On an exhausted stream, `ReadRune` reports `io.EOF`. -/
theorem readRune_empty (t : TextReader) (hw : RWF t) (hs : stream t = []) :
    (t.ReadRune).2 = .error .eof := by
  have h4cap : (4 : Int) ≤ (t.capacity : Int) := by
    have := hw.2.2.2
    exact_mod_cast this
  obtain ⟨q1, q2, q3, q4, q5, q6, q7, q8⟩ :=
    fillAtLeast_spec t 4 (by norm_num) h4cap hw
  rcases hF : t.fillAtLeast 4 with ⟨t1, flag, err⟩
  rw [hF] at q1 q2 q3 q4 q5 q6 q7 q8
  dsimp only at q1 q2 q3 q4 q5 q6 q7 q8
  obtain ⟨p1, p2, p3, p4⟩ := q1
  have hlen : (stream t1).length = 0 := by rw [q3, hs]; rfl
  have hwin : (window t1).length = t1.w - t1.r := window_length t1 p1 (by omega)
  have hwr : t1.w ≤ t1.r := by
    have : (window t1).length + t1.src.length = 0 := by
      have : (stream t1).length = (window t1).length + t1.src.length := by
        unfold stream
        rw [List.length_append]
      omega
    omega
  have hgo : readRuneGo t1 = (t1, .error .eof) := by
    unfold readRuneGo
    rw [if_pos hwr]
  rcases q4 with h | h
  · subst h
    have hq5 := q5 rfl
    have h44 : (4 : Int).toNat = 4 := rfl
    omega
  · subst h
    unfold TextReader.ReadRune
    rw [hF]
    show (if Err.eof = Err.eof then readRuneGo t1 else (t1, .error Err.eof)).2 = _
    rw [if_pos rfl, hgo]

/-- On a non-empty stream, `ReadRune` decodes the head code point of the
logical stream: the fill stage yields an intermediate state `t1` with the
same stream and position, and the decode stage scans exactly the decoded
bytes, advances `r` by the decoded size and arms the rune marker. -/
theorem readRune_ok (t : TextReader) (hw : RWF t) (hs : stream t ≠ []) :
    ∃ t1 : TextReader,
      RWF t1 ∧ stream t1 = stream t ∧ t1.pos = t.pos ∧
      t1.capacity = t.capacity ∧
      (decodeRune (stream t)).2 ≤ t1.w - t1.r ∧
      t.ReadRune =
        ({ t1 with
            pos := t1.pos.Scan ((stream t).take (decodeRune (stream t)).2),
            r := t1.r + (decodeRune (stream t)).2,
            lastRuneSize := ((decodeRune (stream t)).2 : Int),
            lastByte := -1 },
         .ok (decodeRune (stream t))) := by
  have h4cap : (4 : Int) ≤ (t.capacity : Int) := by
    have := hw.2.2.2
    exact_mod_cast this
  obtain ⟨q1, q2, q3, q4, q5, q6, q7, q8⟩ :=
    fillAtLeast_spec t 4 (by norm_num) h4cap hw
  rcases hF : t.fillAtLeast 4 with ⟨t1, flag, err⟩
  rw [hF] at q1 q2 q3 q4 q5 q6 q7 q8
  dsimp only at q1 q2 q3 q4 q5 q6 q7 q8
  obtain ⟨p1, p2, p3, p4⟩ := q1
  obtain ⟨e1, e2, e3, e4⟩ := fillAtLeast_frame t 4
  rw [hF] at e1 e2 e3 e4
  dsimp only at e1 e2 e3 e4
  have htoNat : (4 : Int).toNat = 4 := rfl
  have hslen : 1 ≤ (stream t).length := by
    rcases hstream : stream t with _ | ⟨c, cs⟩
    · exact absurd hstream hs
    · simp
  have hwin : (window t1).length = t1.w - t1.r := window_length t1 p1 (by omega)
  have hq7 : min 4 (stream t).length ≤ t1.w - t1.r := by
    rw [htoNat] at q7
    exact q7
  have hpos : 1 ≤ t1.w - t1.r := by
    rcases Nat.le_total 4 (stream t).length with h | h
    · have : min 4 (stream t).length = 4 := by omega
      omega
    · have : min 4 (stream t).length = (stream t).length := by omega
      omega
  have hwlen2 : (stream t1).length = (window t1).length + t1.src.length := by
    unfold stream
    rw [List.length_append]
  have hwinstream : window t1 = (stream t).take (t1.w - t1.r) := by
    rw [← q3]
    exact window_take_stream t1 p1 (by omega)
  -- the decoder sees the same first four bytes in the window and the stream
  have hdw : decodeRune (window t1) = decodeRune (stream t) := by
    apply decodeRune_eq_of_take4
    rw [hwinstream, List.take_take]
    rcases Nat.le_total 4 (t1.w - t1.r) with h | h
    · rw [min_eq_left h]
    · rw [min_eq_right h]
      rcases Nat.le_total 4 (stream t).length with h2 | h2
      · have h3 : t1.w - t1.r = 4 := by omega
        rw [h3]
      · rw [List.take_all_of_le (by omega), List.take_all_of_le h2]
  have hsz1 : (decodeRune (stream t)).2 ≤ (stream t).length := decodeRune_size_le _
  have hsz4 : (decodeRune (stream t)).2 ≤ 4 := decodeRune_size_le_four _
  have hsz : (decodeRune (stream t)).2 ≤ t1.w - t1.r := by
    rcases Nat.le_total 4 (stream t).length with h | h <;> omega
  -- the scanned chunk is exactly the decoded prefix of the stream
  have hchunk : (t1.buf.take (t1.r + (decodeRune (window t1)).2)).drop t1.r
      = (stream t).take (decodeRune (stream t)).2 := by
    rw [hdw]
    have h1 : (t1.buf.take (t1.r + (decodeRune (stream t)).2)).drop t1.r
        = (t1.buf.drop t1.r).take (decodeRune (stream t)).2 := by
      rw [List.drop_take]
      congr 1
      omega
    rw [h1]
    have h2 : (t1.buf.drop t1.r).take (decodeRune (stream t)).2
        = (window t1).take (decodeRune (stream t)).2 := by
      unfold window
      rw [List.drop_take]
      rw [List.take_take]
      congr 1
      omega
    rw [h2, hwinstream, List.take_take]
    congr 1
    omega
  have hgo : readRuneGo t1 =
      ({ t1 with
          pos := t1.pos.Scan ((stream t).take (decodeRune (stream t)).2),
          r := t1.r + (decodeRune (stream t)).2,
          lastRuneSize := ((decodeRune (stream t)).2 : Int),
          lastByte := -1 },
       .ok (decodeRune (stream t))) := by
    unfold readRuneGo
    rw [if_neg (by omega : ¬ t1.w ≤ t1.r)]
    show ({ t1 with
        pos := t1.pos.Scan ((t1.buf.take (t1.r + (decodeRune (window t1)).2)).drop t1.r),
        r := t1.r + (decodeRune (window t1)).2,
        lastRuneSize := ((decodeRune (window t1)).2 : Int),
        lastByte := -1 }, Except.ok (decodeRune (window t1))) = _
    rw [hchunk, hdw]
  refine ⟨t1, ⟨p1, p2, p3, p4⟩, q3, e1, q2, hsz, ?_⟩
  rcases q4 with h | h
  · subst h
    unfold TextReader.ReadRune
    rw [hF]
    exact hgo
  · subst h
    unfold TextReader.ReadRune
    rw [hF]
    show (if Err.eof = Err.eof then readRuneGo t1 else _) = _
    rw [if_pos rfl]
    exact hgo

/-- Simulation: the sequence of code points obtained by iterating
`ReadRune` equals the straight decode of the logical byte stream. -/
theorem readRunes_sim : ∀ (fuel : Nat) (t : TextReader),
    (stream t).length < fuel → RWF t →
    readRunesFuel fuel t = decodeAll (stream t) := by
  intro fuel
  induction fuel with
  | zero =>
    intro t hf
    omega
  | succ fuel ih =>
    intro t hf hw
    rcases hstream : stream t with _ | ⟨c, cs⟩
    · have hempty := readRune_empty t hw hstream
      rcases hR : t.ReadRune with ⟨t', res⟩
      rw [hR] at hempty
      dsimp only at hempty
      subst hempty
      show (match t.ReadRune with
            | (t', .ok d) => d.1 :: readRunesFuel fuel t'
            | (_, .error _) => []) = decodeAll []
      rw [hR]
      rfl
    · have hs : stream t ≠ [] := by rw [hstream]; simp
      obtain ⟨t1, hw1, hstr1, hpos1, hcap1, hsz, hR⟩ := readRune_ok t hw hs
      obtain ⟨p1, p2, p3, p4⟩ := hw1
      set s := (decodeRune (stream t)).2 with hsdef
      set t2 : TextReader :=
        { t1 with
            pos := t1.pos.Scan ((stream t).take s),
            r := t1.r + s,
            lastRuneSize := (s : Int),
            lastByte := -1 } with ht2
      have hstr2 : stream t2 = (stream t).drop s := by
        rw [ht2]
        rw [stream_advance t1 _ _ _ s p1 (by omega) hsz]
        rw [hstr1]
      have hw2 : RWF t2 := by
        refine ⟨?_, ?_, ?_, ?_⟩ <;> simp only [ht2] <;> omega
      have hspos : 1 ≤ s := by
        rw [hsdef, hstream]
        exact decodeRune_size_pos c cs
      have hlen2 : (stream t2).length < fuel := by
        have hf2 : cs.length + 1 < fuel + 1 := by
          rw [hstream] at hf
          simpa using hf
        have hp := decodeRune_size_pos c cs
        rw [hstr2]
        simp only [List.length_drop]
        rw [hsdef, hstream]
        simp only [List.length_cons]
        omega
      show (match t.ReadRune with
            | (t', .ok d) => d.1 :: readRunesFuel fuel t'
            | (_, .error _) => []) = decodeAll (c :: cs)
      rw [hR]
      show (decodeRune (stream t)).1 :: readRunesFuel fuel t2 = decodeAll (c :: cs)
      rw [ih t2 hlen2 hw2, hstr2, hsdef, hstream]
      exact (decodeAll_cons c cs).symm

theorem readAllRunes_eq (t : TextReader) (hw : RWF t) :
    readAllRunes t = decodeAll (stream t) := by
  unfold readAllRunes
  apply readRunes_sim
  · have hwin : (window t).length = t.w - t.r :=
      window_length t hw.1 (by have := hw.2.1; have := hw.2.2.1; omega)
    have : (stream t).length = (window t).length + t.src.length := by
      unfold stream
      rw [List.length_append]
    omega
  · exact hw

theorem newWithCapacity_rwf (src : List Nat) (cap : Nat) :
    RWF (TextReader.NewWithCapacity src cap) := by
  unfold TextReader.NewWithCapacity RWF
  by_cases h : cap < 4
  · rw [if_pos h]
    simp
  · rw [if_neg h]
    simp
    omega

theorem stream_new (src : List Nat) (cap : Nat) :
    stream (TextReader.NewWithCapacity src cap) = src := by
  unfold TextReader.NewWithCapacity stream window
  simp

/-- C1: Round-trip of rune reads: for every capacity (the constructor
clamps it to at least 4) and every text of valid code points, reading
runes until end-of-stream from the UTF-8 encoding reproduces the text
exactly, including runes spanning refill/compaction boundaries. -/
theorem readRune_roundtrip (text : List Int) (cap : Nat)
    (hv : ∀ c ∈ text, ValidRune c) :
    readAllRunes (TextReader.NewWithCapacity (encodeRunes text) cap) = text := by
  rw [readAllRunes_eq _ (newWithCapacity_rwf _ _), stream_new]
  exact decodeAll_encodeRunes text hv

theorem readRune_roundtrip_witness :
    (∀ c ∈ ([0x4F60, 10, 0x597D, 97] : List Int), ValidRune c) ∧
    readAllRunes
        (TextReader.NewWithCapacity (encodeRunes [0x4F60, 10, 0x597D, 97]) 4)
      = [0x4F60, 10, 0x597D, 97] :=
  ⟨by decide, readRune_roundtrip [0x4F60, 10, 0x597D, 97] 4 (by decide)⟩

theorem scan_norm (p : Position) (input : List Nat) :
    p.Scan input
      = Position.Scan
          (if p.runesPerLine.length = 0 then ⟨[0], [0], p.offset⟩ else p) input := by
  by_cases h : p.runesPerLine.length = 0 <;> simp [Position.Scan, h]

theorem posNorm_wf (p : Position) (hp : PosWF p) :
    PosWF (if p.runesPerLine.length = 0 then ⟨[0], [0], p.offset⟩ else p) ∧
    (if p.runesPerLine.length = 0 then (⟨[0], [0], p.offset⟩ : Position)
        else p).runesPerLine ≠ [] ∧
    (if p.runesPerLine.length = 0 then (⟨[0], [0], p.offset⟩ : Position)
        else p).line = p.line ∧
    (if p.runesPerLine.length = 0 then (⟨[0], [0], p.offset⟩ : Position)
        else p).column = p.column ∧
    (if p.runesPerLine.length = 0 then (⟨[0], [0], p.offset⟩ : Position)
        else p).offset = p.offset := by
  obtain ⟨hlen, hent, hoff⟩ := hp
  by_cases h : p.runesPerLine.length = 0
  · rw [if_pos h]
    have hrpl : p.runesPerLine = [] := List.length_eq_zero.mp h
    have hbpl : p.bytesPerLine = [] := by
      apply List.length_eq_zero.mp
      omega
    have hoff0 : p.offset = 0 := by
      rw [hbpl] at hoff
      simpa using hoff
    refine ⟨⟨by simp, by simp, by simp [hoff0]⟩, by simp, ?_, ?_, rfl⟩
    · unfold Position.line
      rw [hrpl]
      simp
    · unfold Position.column
      rw [hrpl]
  · rw [if_neg h]
    exact ⟨⟨hlen, hent, hoff⟩, fun hc => h (by simp [hc]), rfl, rfl, rfl⟩

/-- C3: Single-level undo: whenever `ReadRune` succeeds, an immediately
following `UnreadRune` succeeds, restores the previous line, column,
offset and read cursor (the logical stream), and a second consecutive
`UnreadRune` fails with `ErrInvalidUnreadRune` while changing nothing. -/
theorem readRune_unreadRune (t : TextReader) (hw : RWF t) (hp : PosWF t.pos)
    (hs : stream t ≠ []) :
    ∃ t2 d t3,
      t.ReadRune = (t2, .ok d) ∧
      t2.UnreadRune = (t3, none) ∧
      t3.pos.line = t.pos.line ∧
      t3.pos.column = t.pos.column ∧
      t3.pos.offset = t.pos.offset ∧
      stream t3 = stream t ∧
      t3.UnreadRune = (t3, some .invalidUnreadRune) := by
  obtain ⟨t1, hw1, hstr1, hpos1, hcap1, hsz, hR⟩ := readRune_ok t hw hs
  obtain ⟨p1, p2, p3, p4⟩ := hw1
  rcases hstream : stream t with _ | ⟨b, rest⟩
  · exact absurd hstream hs
  set s := (decodeRune (stream t)).2 with hsdef
  have hspos : 1 ≤ s := by
    rw [hsdef, hstream]
    exact decodeRune_size_pos b rest
  have hs4 : s ≤ rest.length + 1 := by
    rw [hsdef, hstream]
    have := decodeRune_size_le (b :: rest)
    simpa using this
  -- the scanned chunk is a single decode unit
  have hchunkdec : decodeRune ((stream t).take s) = decodeRune (stream t) := by
    rw [hsdef]
    exact decodeRune_take_size (stream t)
  set q : Position := (if t.pos.runesPerLine.length = 0
      then ⟨[0], [0], t.pos.offset⟩ else t.pos) with hqdef
  obtain ⟨hqwf, hqne, hqline, hqcol, hqoff⟩ := posNorm_wf t.pos hp
  rw [← hqdef] at hqwf hqne hqline hqcol hqoff
  have hscan : t1.pos.Scan ((stream t).take s)
      = scanStep q (decodeRune (stream t)).1 s := by
    rw [hpos1, scan_norm, ← hqdef]
    rcases htake : (stream t).take s with _ | ⟨c0, crest⟩
    · exfalso
      have : ((stream t).take s).length = s := by
        rw [List.length_take, hstream]
        simp only [List.length_cons]
        omega
      rw [htake] at this
      simp at this
      omega
    · have hlen : ((stream t).take s).length = s := by
        rw [List.length_take, hstream]
        simp only [List.length_cons]
        omega
      rw [htake] at hlen hchunkdec
      simp only [List.length_cons] at hlen
      rw [scan_unit q c0 crest hqne (by rw [hchunkdec, ← hsdef]; omega)]
      rw [hchunkdec, ← hsdef]
  have hnl : (decodeRune (stream t)).1 = 10 → s = 1 := by
    intro h10
    rw [hsdef, hstream]
    rw [hstream] at h10
    exact (decodeRune_nl b rest).2.1 h10
  obtain ⟨p', hrew, hline, hcol, hoff⟩ :=
    rewind_scan_unit q (decodeRune (stream t)).1 s hqwf hqne hspos hnl
  set t2 : TextReader :=
    { t1 with
        pos := t1.pos.Scan ((stream t).take s),
        r := t1.r + s,
        lastRuneSize := (s : Int),
        lastByte := -1 } with ht2
  set t3 : TextReader :=
    { t2 with pos := p', r := t2.r - (s : Int).toNat,
              lastRuneSize := -1, lastByte := -1 } with ht3
  have hunread : t2.UnreadRune = (t3, none) := by
    unfold TextReader.UnreadRune
    have hguard : ¬ (t2.lastRuneSize < 0 ∨ (t2.r : Int) < t2.lastRuneSize) := by
      show ¬ (((s : Nat) : Int) < 0 ∨ ((t1.r + s : Nat) : Int) < ((s : Nat) : Int))
      push_neg
      refine ⟨Int.natCast_nonneg s, by push_cast; omega⟩
    rw [if_neg hguard]
    have hposrw : t2.pos.Rewind t2.lastRuneSize 1 = .ok p' := by
      show (t1.pos.Scan ((stream t).take s)).Rewind (s : Int) 1 = .ok p'
      rw [hscan]
      exact hrew
    rw [hposrw]
  have hunread2 : t3.UnreadRune = (t3, some .invalidUnreadRune) := by
    unfold TextReader.UnreadRune
    rw [if_pos (by left; show (-1 : Int) < 0; norm_num)]
  refine ⟨t2, decodeRune (stream t), t3, ?_, hunread, ?_, ?_, ?_, ?_, hunread2⟩
  · exact hR
  · show p'.line = t.pos.line
    rw [hline, hqline]
  · show p'.column = t.pos.column
    rw [hcol, hqcol]
  · show p'.offset = t.pos.offset
    rw [hoff, hqoff]
  · have hr3 : t3.r = t1.r := by
      show t1.r + s - (s : Int).toNat = t1.r
      rw [Int.toNat_natCast]
      omega
    calc stream t3 = stream t1 := by
          apply stream_congr <;> first | rfl | exact hr3
      _ = stream t := hstr1
      _ = b :: rest := hstream

theorem readRune_unreadRune_witness :
    ∃ t2 d t3,
      (TextReader.NewWithCapacity [0xE4, 0xBD, 0xA0, 98] 4).ReadRune = (t2, .ok d) ∧
      t2.UnreadRune = (t3, none) ∧
      t3.pos.line = (TextReader.NewWithCapacity [0xE4, 0xBD, 0xA0, 98] 4).pos.line ∧
      t3.pos.column = (TextReader.NewWithCapacity [0xE4, 0xBD, 0xA0, 98] 4).pos.column ∧
      t3.pos.offset = (TextReader.NewWithCapacity [0xE4, 0xBD, 0xA0, 98] 4).pos.offset ∧
      stream t3 = stream (TextReader.NewWithCapacity [0xE4, 0xBD, 0xA0, 98] 4) ∧
      t3.UnreadRune = (t3, some .invalidUnreadRune) :=
  readRune_unreadRune (TextReader.NewWithCapacity [0xE4, 0xBD, 0xA0, 98] 4)
    (by decide) (by decide) (by decide)

/-- C4: Malformed-encoding tolerance: when the stream's next bytes are an
invalid leading byte or a truncated UTF-8 sequence (the decoder yields
the replacement character with size 1), `ReadRune` returns
`(RuneError, 1)` with NO error, consumes exactly one byte of the stream
and advances the offset by exactly one. -/
theorem readRune_malformed (t : TextReader) (hw : RWF t) (hs : stream t ≠ [])
    (hbad : decodeRune (stream t) = (runeError, 1)) :
    (t.ReadRune).2 = .ok (runeError, 1) ∧
    stream (t.ReadRune).1 = (stream t).drop 1 ∧
    (t.ReadRune).1.pos.offset = t.pos.offset + 1 := by
  obtain ⟨t1, hw1, hstr1, hpos1, hcap1, hsz, hR⟩ := readRune_ok t hw hs
  obtain ⟨p1, p2, p3, p4⟩ := hw1
  rw [hR]
  have hsz1 : (decodeRune (stream t)).2 = 1 := by rw [hbad]
  have htake1 : ((stream t).take 1).length = 1 := by
    rcases hst : stream t with _ | ⟨c, cs⟩
    · exact absurd hst hs
    · simp
  refine ⟨by rw [hbad], ?_, ?_⟩
  · dsimp only
    rw [hsz1]
    rw [stream_advance t1 _ _ _ 1 p1 (by omega) (by omega)]
    rw [hstr1]
  · dsimp only
    rw [hsz1, scan_offset, hpos1, htake1]
    norm_num

theorem readRune_malformed_witness :
    decodeRune (stream (TextReader.NewWithCapacity [0xFF, 97] 4)) = (runeError, 1) ∧
    ((TextReader.NewWithCapacity [0xFF, 97] 4).ReadRune).2 = .ok (runeError, 1) ∧
    ((TextReader.NewWithCapacity [0xFF, 97] 4).ReadRune).1.pos.offset
      = (TextReader.NewWithCapacity [0xFF, 97] 4).pos.offset + 1 :=
  ⟨by decide,
   (readRune_malformed (TextReader.NewWithCapacity [0xFF, 97] 4)
      (by decide) (by decide) (by decide)).1,
   (readRune_malformed (TextReader.NewWithCapacity [0xFF, 97] 4)
      (by decide) (by decide) (by decide)).2.2⟩

/-- C6: Rewind error contract: a negative byte or rune count yields
`ErrPositionRewind` (negative) and no new state; a byte count above the
current offset yields "not enough history"; `Rewind 0 0` is a no-op
success; rewinding exactly the full offset is a full reset; and the walk
is all-or-nothing — if the line records run out while bytes remain, it
fails with `failed` and no new state is produced (the caller keeps the
prior position unchanged). -/
theorem rewind_error_contract (p : Position) (bytes runes : Int) :
    ((bytes < 0 ∨ runes < 0) → p.Rewind bytes runes = .error .negative) ∧
    (¬(bytes = 0 ∧ runes = 0) → 0 ≤ bytes → 0 ≤ runes → p.offset < bytes →
      p.Rewind bytes runes = .error .notEnoughHistory) ∧
    p.Rewind 0 0 = .ok p ∧
    (¬(bytes = 0 ∧ runes = 0) → 0 ≤ bytes → 0 ≤ runes → bytes = p.offset →
      p.Rewind bytes runes = .ok p.Reset) ∧
    (¬(bytes = 0 ∧ runes = 0) → 0 ≤ bytes → 0 ≤ runes → bytes < p.offset →
      rewindWalk bytes (p.bytesPerLine.zip p.runesPerLine) 0 0 = none →
      p.Rewind bytes runes = .error .failed) := by
  refine ⟨?_, ?_, ?_, ?_, ?_⟩
  · intro h
    unfold Position.Rewind
    rw [if_neg (by omega), if_pos h]
  · intro h0 hb hr hoff
    unfold Position.Rewind
    rw [if_neg h0, if_neg (by omega), if_pos hoff]
  · unfold Position.Rewind
    rw [if_pos ⟨rfl, rfl⟩]
  · intro h0 hb hr heq
    unfold Position.Rewind
    rw [if_neg h0, if_neg (by omega), if_neg (by omega), if_pos heq]
  · intro h0 hb hr hlt hwalk
    unfold Position.Rewind
    rw [if_neg h0, if_neg (by omega), if_neg (by omega), if_neg (by omega), hwalk]

theorem rewind_error_contract_witness :
    Position.Rewind ⟨[2, 0], [3, 0], 4⟩ (-1) 1 = .error .negative ∧
    Position.Rewind ⟨[2, 0], [3, 0], 4⟩ 7 1 = .error .notEnoughHistory ∧
    Position.Rewind ⟨[2, 0], [3, 0], 4⟩ 0 0 = .ok ⟨[2, 0], [3, 0], 4⟩ ∧
    Position.Rewind ⟨[2, 0], [3, 0], 4⟩ 4 2
      = .ok (Position.Reset ⟨[2, 0], [3, 0], 4⟩) ∧
    Position.Rewind ⟨[0], [0], 2⟩ 1 1 = .error .failed :=
  ⟨(rewind_error_contract ⟨[2, 0], [3, 0], 4⟩ (-1) 1).1 (by norm_num),
   (rewind_error_contract ⟨[2, 0], [3, 0], 4⟩ 7 1).2.1
     (by norm_num) (by norm_num) (by norm_num) (by norm_num),
   (rewind_error_contract ⟨[2, 0], [3, 0], 4⟩ 0 0).2.2.1,
   (rewind_error_contract ⟨[2, 0], [3, 0], 4⟩ 4 2).2.2.2.1
     (by norm_num) (by norm_num) (by norm_num) (by norm_num),
   (rewind_error_contract ⟨[0], [0], 2⟩ 1 1).2.2.2.2
     (by norm_num) (by norm_num) (by norm_num) (by norm_num) (by decide)⟩

/-- C8: Snapshot independence (value level): the snapshot returned by
`Pos` (a `Copy` of the position, rebuilt field by field with fresh line
record lists) carries exactly the current line, column and offset and
equals the current position as a value; after the original position
mutates (a `Scan`), the snapshot still carries the pre-mutation offset.
The absence of storage sharing itself is a memory-level property with no
counterpart in this value semantics. -/
theorem pos_snapshot (t : TextReader) :
    t.Pos.line = t.pos.line ∧
    t.Pos.column = t.pos.column ∧
    t.Pos.offset = t.pos.offset ∧
    t.Pos = t.pos ∧
    (∀ input : List Nat,
      (t.pos.Scan input).offset = t.Pos.offset + input.length) := by
  have hcopy : t.Pos = t.pos := rfl
  refine ⟨rfl, rfl, rfl, hcopy, ?_⟩
  intro input
  rw [scan_offset, hcopy]

/-- C5 (amended): every failing `Seek` preserves the `Position`, both
undo markers and the logical byte stream — all externally observable
state — though the raw buffer index `r` may move when the failing
forward seek has already compacted the buffer. -/
theorem seek_fail_preserves (t : TextReader) (off : Int) (wh : Whence)
    (hw : RWF t) (e : Err) (he : (t.Seek off wh).2 = .error e) :
    (t.Seek off wh).1.pos = t.pos ∧
    (t.Seek off wh).1.lastRuneSize = t.lastRuneSize ∧
    (t.Seek off wh).1.lastByte = t.lastByte ∧
    stream (t.Seek off wh).1 = stream t := by
  unfold TextReader.Seek at he ⊢
  rcases hres : seekResolve t off wh with err | newR
  · exact ⟨rfl, rfl, rfl, rfl⟩
  rw [hres] at he
  dsimp only at he ⊢
  by_cases h1 : newR < 0
  · rw [if_pos h1] at he ⊢
    exact ⟨rfl, rfl, rfl, rfl⟩
  rw [if_neg h1] at he ⊢
  by_cases h2 : newR - (t.r : Int) = 0
  · rw [if_pos h2] at he
    exact absurd he (by simp)
  rw [if_neg h2] at he ⊢
  by_cases h3 : (t.capacity : Int) < newR
  · rw [if_pos h3] at he ⊢
    exact ⟨rfl, rfl, rfl, rfl⟩
  rw [if_neg h3] at he ⊢
  by_cases h4 : 0 < newR - (t.r : Int)
  · rw [if_pos h4] at he ⊢
    by_cases h5 : (t.capacity : Int) < newR - (t.r : Int)
    · rw [if_pos h5] at he ⊢
      exact ⟨rfl, rfl, rfl, rfl⟩
    rw [if_neg h5] at he ⊢
    have hreln : (((newR - (t.r : Int)).toNat : Nat) : Int) = newR - (t.r : Int) :=
      Int.toNat_of_nonneg (le_of_lt h4)
    by_cases h6 : t.w - t.r < (newR - (t.r : Int)).toNat
    · rw [if_pos h6] at he ⊢
      obtain ⟨q1, q2, q3, q4, q5, q6, q7, q8⟩ :=
        fillAtLeast_spec t (((newR - (t.r : Int)).toNat : Nat) : Int)
          (Int.natCast_nonneg _) (by rw [hreln]; exact le_of_not_lt h5) hw
      obtain ⟨f1, f2, f3, f4⟩ :=
        fillAtLeast_frame t (((newR - (t.r : Int)).toNat : Nat) : Int)
      rcases hF : t.fillAtLeast (((newR - (t.r : Int)).toNat : Nat) : Int)
        with ⟨t1, fl, ferr⟩
      rw [hF] at he q1 q2 q3 q4 q5 q6 q7 q8 f1 f2 f3 f4
      dsimp only at he q1 q2 q3 q4 q5 q6 q7 q8 f1 f2 f3 f4 ⊢
      have hfwd : ∀ hcase : t1.w < t1.r + (newR - (t.r : Int)).toNat,
          (seekFwdGo t1 (newR - (t.r : Int)).toNat).1.pos = t.pos ∧
          (seekFwdGo t1 (newR - (t.r : Int)).toNat).1.lastRuneSize = t.lastRuneSize ∧
          (seekFwdGo t1 (newR - (t.r : Int)).toNat).1.lastByte = t.lastByte ∧
          stream (seekFwdGo t1 (newR - (t.r : Int)).toNat).1 = stream t := by
        intro hcase
        unfold seekFwdGo
        rw [if_pos hcase]
        exact ⟨f1, f2, f3, q3⟩
      rcases ferr with _ | e'
      · -- fill succeeded: the forward move cannot overrun the window
        exfalso
        have hq5 := q5 rfl
        have hok : (seekFwdGo t1 (newR - (t.r : Int)).toNat).2
            = .ok ((t1.pos.Scan
                ((t1.buf.take (t1.r + (newR - (t.r : Int)).toNat)).drop t1.r)).offset) := by
          unfold seekFwdGo
          rw [if_neg (by omega)]
        rw [hok] at he
        simp at he
      · have he' : e' = Err.eof := by
          rcases q4 with h | h
          · exact absurd h (by simp)
          · simpa using h
        subst he'
        dsimp only at he ⊢
        rw [if_pos rfl] at he ⊢
        by_cases hcase : t1.w < t1.r + (newR - (t.r : Int)).toNat
        · exact hfwd hcase
        · exfalso
          have hok : (seekFwdGo t1 (newR - (t.r : Int)).toNat).2
              = .ok ((t1.pos.Scan
                  ((t1.buf.take (t1.r + (newR - (t.r : Int)).toNat)).drop t1.r)).offset) := by
            unfold seekFwdGo
            rw [if_neg hcase]
          rw [hok] at he
          simp at he
    · rw [if_neg h6] at he ⊢
      dsimp only at he ⊢
      exfalso
      have hok : (seekFwdGo t (newR - (t.r : Int)).toNat).2
          = .ok ((t.pos.Scan
              ((t.buf.take (t.r + (newR - (t.r : Int)).toNat)).drop t.r)).offset) := by
        unfold seekFwdGo
        rw [if_neg (by omega)]
      rw [hok] at he
      simp at he
  · rw [if_neg h4] at he ⊢
    rcases hrw : t.pos.Rewind (-(newR - (t.r : Int)))
        ((runeCount ((t.buf.take t.r).drop newR.toNat) : Nat) : Int) with e'' | p'
    · exact ⟨rfl, rfl, rfl, rfl⟩
    · rw [hrw] at he
      simp at he

/-- The reader state used in the C5 analysis: capacity 4, source
`[97, 98, 99]`, after a bulk `Read` of two bytes (`r = 2`, `w = 3`). -/
def c5reader : TextReader := ((TextReader.NewWithCapacity [97, 98, 99] 4).Read 2).1

/-- C5 counterexample: from `c5reader` a forward `Seek` past the
available data fails with `SeekOutOfBuffer`, yet the read cursor `r` has
moved from 2 to 0 — the failing seek's fill stage compacted the buffer,
so the raw cursor is NOT left exactly as it was before the call. -/
theorem seek_fail_moves_cursor :
    (c5reader.Seek 2 Whence.seekCurrent).2 = .error Err.seekOutOfBuffer ∧
    c5reader.r = 2 ∧
    (c5reader.Seek 2 Whence.seekCurrent).1.r = 0 := by decide

theorem seek_fail_preserves_witness :
    RWF c5reader ∧
    (c5reader.Seek 2 Whence.seekCurrent).2 = .error Err.seekOutOfBuffer ∧
    ((c5reader.Seek 2 Whence.seekCurrent).1.pos = c5reader.pos ∧
     (c5reader.Seek 2 Whence.seekCurrent).1.lastRuneSize = c5reader.lastRuneSize ∧
     (c5reader.Seek 2 Whence.seekCurrent).1.lastByte = c5reader.lastByte ∧
     stream (c5reader.Seek 2 Whence.seekCurrent).1 = stream c5reader) :=
  ⟨by decide, by decide,
   seek_fail_preserves c5reader 2 Whence.seekCurrent (by decide)
     Err.seekOutOfBuffer (by decide)⟩

/-- C7: Seek-from-Start translation: a `Start` offset is an absolute
stream position, translated to the buffer-relative target
`off - (pos.offset - r)` where `pos.offset - r` is the stream offset of
the window start; a negative target fails with `ErrNegativePosition` and
a target before the window start (bytes already discarded by
compaction) fails with `SeekOutOfBuffer`, both leaving the reader
completely unchanged. -/
theorem seek_start_translation (t : TextReader) (off : Int) :
    (off < 0 → t.Seek off Whence.seekStart = (t, .error Err.negativePosition)) ∧
    (0 ≤ off → off < t.pos.offset - (t.r : Int) →
      t.Seek off Whence.seekStart = (t, .error Err.seekOutOfBuffer)) ∧
    (0 ≤ off → ¬ off < t.pos.offset - (t.r : Int) →
      seekResolve t off Whence.seekStart
        = .ok (off - (t.pos.offset - (t.r : Int)))) := by
  refine ⟨?_, ?_, ?_⟩
  · intro h
    have hres : seekResolve t off Whence.seekStart = .error Err.negativePosition := by
      unfold seekResolve
      rw [if_pos h]
    unfold TextReader.Seek
    rw [hres]
  · intro h0 h1
    have hres : seekResolve t off Whence.seekStart = .error Err.seekOutOfBuffer := by
      unfold seekResolve
      rw [if_neg (by omega), if_pos h1]
    unfold TextReader.Seek
    rw [hres]
  · intro h0 h1
    unfold seekResolve
    rw [if_neg (by omega), if_neg h1]

/-- The reader state used in the C7 analysis: capacity 4, a six-byte
source, after two bulk reads totalling six bytes — the buffer has
compacted past stream offset 4, so `pos.offset - r = 4`. -/
def c7reader : TextReader :=
  (((TextReader.NewWithCapacity [97, 98, 99, 100, 101, 102] 4).Read 4).1.Read 2).1

theorem seek_start_translation_witness :
    c7reader.pos.offset - (c7reader.r : Int) = 4 ∧
    c7reader.Seek (-1) Whence.seekStart = (c7reader, .error Err.negativePosition) ∧
    c7reader.Seek 3 Whence.seekStart = (c7reader, .error Err.seekOutOfBuffer) ∧
    seekResolve c7reader 5 Whence.seekStart
      = .ok (5 - (c7reader.pos.offset - (c7reader.r : Int))) :=
  ⟨by decide,
   (seek_start_translation c7reader (-1)).1 (by decide),
   (seek_start_translation c7reader 3).2.1 (by decide) (by decide),
   (seek_start_translation c7reader 5).2.2 (by decide) (by decide)⟩

/-- C10 (implicit): a backward seek — resolved target strictly below the
current cursor — never issues a read request to the underlying source
(`src` is untouched) and never rewrites the buffered window (`buf` and
`w` are untouched); on success it only moves the cursor back to the
target and rewinds the `Position` by the distance travelled. -/
theorem seek_backward_frame (t : TextReader) (off : Int) (wh : Whence)
    (newR : Int) (hres : seekResolve t off wh = .ok newR) (h0 : ¬ newR < 0)
    (hback : newR - (t.r : Int) < 0) (hcap : ¬ (t.capacity : Int) < newR) :
    (t.Seek off wh).1.src = t.src ∧
    (t.Seek off wh).1.buf = t.buf ∧
    (t.Seek off wh).1.w = t.w ∧
    (∀ p0 res, t.Seek off wh = (p0, .ok res) →
      p0.r = newR.toNat ∧
      p0.pos.offset = t.pos.offset - ((t.r : Int) - newR)) := by
  unfold TextReader.Seek
  rw [hres]
  dsimp only
  rw [if_neg h0, if_neg (by omega : ¬ newR - (t.r : Int) = 0), if_neg hcap,
      if_neg (by omega : ¬ 0 < newR - (t.r : Int))]
  rcases hrw : t.pos.Rewind (-(newR - (t.r : Int)))
      ((runeCount ((t.buf.take t.r).drop newR.toNat) : Nat) : Int) with e'' | p'
  · refine ⟨rfl, rfl, rfl, ?_⟩
    intro p0 res hpair
    exact absurd hpair (by simp)
  · refine ⟨rfl, rfl, rfl, ?_⟩
    intro p0 res hpair
    have hoff := rewind_offset t.pos (-(newR - (t.r : Int)))
      ((runeCount ((t.buf.take t.r).drop newR.toNat) : Nat) : Int) p' hrw
    have hp0 := congrArg Prod.fst hpair
    dsimp only at hp0
    refine ⟨?_, ?_⟩
    · rw [← hp0]
    · rw [← hp0]
      show p'.offset = t.pos.offset - ((t.r : Int) - newR)
      rw [hoff]
      ring

/-- The reader state used in the C10 analysis: capacity 4, source
`[100, 101, 102]`, after a bulk `Read` of two bytes. -/
def c10reader : TextReader := ((TextReader.NewWithCapacity [100, 101, 102] 4).Read 2).1

theorem seek_backward_frame_witness :
    seekResolve c10reader 0 Whence.seekStart = .ok 0 ∧
    (c10reader.Seek 0 Whence.seekStart).1.src = c10reader.src ∧
    (c10reader.Seek 0 Whence.seekStart).1.buf = c10reader.buf ∧
    (c10reader.Seek 0 Whence.seekStart).1.w = c10reader.w ∧
    (∀ p0 res, c10reader.Seek 0 Whence.seekStart = (p0, .ok res) →
      p0.r = (0 : Int).toNat ∧
      p0.pos.offset = c10reader.pos.offset - ((c10reader.r : Int) - 0)) :=
  ⟨by decide,
   (seek_backward_frame c10reader 0 Whence.seekStart 0 (by decide) (by decide)
     (by decide) (by decide)).1,
   (seek_backward_frame c10reader 0 Whence.seekStart 0 (by decide) (by decide)
     (by decide) (by decide)).2.1,
   (seek_backward_frame c10reader 0 Whence.seekStart 0 (by decide) (by decide)
     (by decide) (by decide)).2.2.1,
   (seek_backward_frame c10reader 0 Whence.seekStart 0 (by decide) (by decide)
     (by decide) (by decide)).2.2.2⟩

/-- Consuming bytes in chunks: each chunk is fed to `Scan` in turn, as
the reader does for every rune read, byte read, bulk-read drain and
forward seek. -/
def scanChunks (p : Position) (chunks : List (List Nat)) : Position :=
  chunks.foldl Position.Scan p

/-- The column the SPEC predicts for rune-aligned consumption: walk the
decode units of the byte text; a newline unit resets the count, any
other unit adds one code point. -/
def colWalkF : Nat → List Nat → Int → Int
  | 0, _, col => col
  | _ + 1, [], col => col
  | fuel + 1, b :: rest, col =>
    colWalkF fuel ((b :: rest).drop (decodeRune (b :: rest)).2)
      (if (decodeRune (b :: rest)).1 = 10 then 0 else col + 1)

def columnSpec (bs : List Nat) : Int := colWalkF (bs.length + 1) bs 0

theorem scanStep_column (p : Position) (c : Int) (s : Nat)
    (hr : p.runesPerLine ≠ []) (hb : p.bytesPerLine ≠ []) :
    (scanStep p c s).column = if c = 10 then 0 else p.column + 1 := by
  unfold scanStep Position.column
  rcases p with ⟨rpl, bpl, off⟩
  rcases rpl with _ | ⟨r0, rs⟩
  · exact absurd rfl hr
  rcases bpl with _ | ⟨b0, bs⟩
  · exact absurd rfl hb
  by_cases h : c = 10
  · rw [if_pos h, if_pos h]
  · rw [if_neg h, if_neg h]

theorem scanStep_both_ne (p : Position) (c : Int) (s : Nat)
    (hr : p.runesPerLine ≠ []) (hb : p.bytesPerLine ≠ []) :
    (scanStep p c s).runesPerLine ≠ [] ∧ (scanStep p c s).bytesPerLine ≠ [] := by
  unfold scanStep
  rcases p with ⟨rpl, bpl, off⟩
  rcases rpl with _ | ⟨r0, rs⟩
  · exact absurd rfl hr
  rcases bpl with _ | ⟨b0, bs⟩
  · exact absurd rfl hb
  by_cases h : c = 10
  · rw [if_pos h]
    exact ⟨by simp, by simp⟩
  · rw [if_neg h]
    exact ⟨by simp, by simp⟩

theorem scan_column_walk : ∀ (fuel : Nat) (bs : List Nat) (p : Position),
    bs.length < fuel → p.runesPerLine ≠ [] → p.bytesPerLine ≠ [] →
    (p.Scan bs).column = colWalkF fuel bs p.column := by
  intro fuel
  induction fuel with
  | zero =>
    intro bs p hf
    omega
  | succ fuel ih =>
    intro bs p hf hr hb
    rcases bs with _ | ⟨b, rest⟩
    · show (Position.Scan p []).column = p.column
      unfold Position.Scan
      rw [if_neg (by simpa using hr)]
      rfl
    · rw [scan_cons p b rest hr]
      have hsz := decodeRune_size_pos b rest
      have hf' : rest.length + 1 < fuel + 1 := by simpa using hf
      obtain ⟨hr', hb'⟩ :=
        scanStep_both_ne p (decodeRune (b :: rest)).1 (decodeRune (b :: rest)).2 hr hb
      rw [ih ((b :: rest).drop (decodeRune (b :: rest)).2) _
        (by simp only [List.length_drop, List.length_cons]; omega) hr' hb']
      rw [scanStep_column p _ _ hr hb]
      rfl

theorem scanChunks_offset_line : ∀ (chunks : List (List Nat)) (p : Position),
    (scanChunks p chunks).offset
      = p.offset + (((chunks.map List.length).sum : Nat) : Int) ∧
    (scanChunks p chunks).line = p.line + (chunks.map fun c => c.count 10).sum := by
  intro chunks
  induction chunks with
  | nil =>
    intro p
    refine ⟨?_, ?_⟩ <;> simp [scanChunks]
  | cons c cs ih =>
    intro p
    obtain ⟨h1, h2⟩ := ih (p.Scan c)
    refine ⟨?_, ?_⟩
    · show (scanChunks (p.Scan c) cs).offset = _
      rw [h1, scan_offset]
      simp only [List.map_cons, List.sum_cons]
      push_cast
      ring
    · show (scanChunks (p.Scan c) cs).line = _
      rw [h2, scan_line]
      simp only [List.map_cons, List.sum_cons]
      omega

/-- C2 (amended): after the reader consumes its bytes as a sequence of
scanned chunks starting from the fresh position, the offset equals the
total number of bytes consumed and the line equals one plus the number
of newline bytes consumed — for EVERY chunking; the column, however,
counts one per scanned chunk since the last newline, so it equals the
number of code points consumed since the most recent newline exactly
when consumption is rune-aligned, as in the single whole-text scan whose
column is characterized here by the decode-unit walk `columnSpec`.
Byte-wise consumption of a multi-byte rune inflates the column
(counterexample: three one-byte reads of one three-byte code point). -/
theorem position_identities (chunks : List (List Nat)) (bs : List Nat) :
    (scanChunks Position.New chunks).offset
      = (((chunks.map List.length).sum : Nat) : Int) ∧
    (scanChunks Position.New chunks).line
      = 1 + (chunks.map fun c => c.count 10).sum ∧
    (Position.New.Scan bs).column = columnSpec bs := by
  obtain ⟨h1, h2⟩ := scanChunks_offset_line chunks Position.New
  refine ⟨?_, ?_, ?_⟩
  · rw [h1]
    show (0 : Int) + _ = _
    ring
  · rw [h2]
    rfl
  · rw [scan_norm]
    show (Position.Scan ⟨[0], [0], 0⟩ bs).column = columnSpec bs
    rw [scan_column_walk (bs.length + 1) bs ⟨[0], [0], 0⟩ (by omega)
      (by simp) (by simp)]
    rfl

/-- The reader state used in the C2 counterexample: the single CJK code
point `[0xE4, 0xBD, 0xA0]` consumed byte by byte with three `ReadByte`
calls. -/
def c2reader : TextReader :=
  ((((TextReader.NewWithCapacity [0xE4, 0xBD, 0xA0] 4).ReadByte).1.ReadByte).1.ReadByte).1

/-- C2 counterexample: after consuming exactly `k = 3` bytes byte-wise,
offset and line match the claim, but the reported column is 3 although
only ONE code point (and no newline) was consumed — the column counts
scan units, not code points, under byte-wise consumption. -/
theorem column_counts_scan_units :
    c2reader.pos.offset = 3 ∧
    c2reader.pos.line = 1 ∧
    c2reader.pos.column = 3 ∧
    (decodeAll [0xE4, 0xBD, 0xA0]).length = 1 ∧
    columnSpec [0xE4, 0xBD, 0xA0] = 1 := by decide

/-- The part of the `Read` loop body after the drain (named so the loop
can be reasoned about branch by branch; definitionally equal to the
corresponding section of `readLoopF`). -/
def readLoopTail (fuel needed : Nat) (t1 : TextReader) (acc1 : List Nat)
    (readErr : Option Err) : TextReader × List Nat × Option Err :=
  if readErr.isSome then readFinish t1 acc1 readErr
  else if needed ≤ acc1.length then readFinish t1 acc1 readErr
  else if t1.capacity < needed - acc1.length then
    match t1.src with
    | [] =>
      readFinish { t1 with pos := t1.pos.Scan [], r := 0, w := 0,
                           lastRuneSize := -1, lastByte := -1 } acc1 (some .eof)
    | _ :: _ =>
      let k := min (needed - acc1.length) t1.src.length
      let chunk := t1.src.take k
      readFinish { t1 with src := t1.src.drop k, pos := t1.pos.Scan chunk,
                           r := 0, w := 0, lastRuneSize := -1, lastByte := -1 }
        (acc1 ++ chunk) none
  else
    let fr := t1.fillAtLeast ((needed - acc1.length : Nat) : Int)
    readLoopF fuel needed fr.1 acc1 fr.2.2

theorem readLoopF_succ (fuel needed : Nat) (t : TextReader) (acc : List Nat)
    (readErr : Option Err) :
    readLoopF (fuel + 1) needed t acc readErr =
      if acc.length < needed then
        readLoopTail fuel needed
          (if 0 < t.w - t.r then
            ({ t with
                pos := t.pos.Scan
                  ((t.buf.take (t.r + min (needed - acc.length) (t.w - t.r))).drop t.r),
                r := t.r + min (needed - acc.length) (t.w - t.r) },
             acc ++ (t.buf.take
                (t.r + min (needed - acc.length) (t.w - t.r))).drop t.r)
           else (t, acc)).1
          (if 0 < t.w - t.r then
            ({ t with
                pos := t.pos.Scan
                  ((t.buf.take (t.r + min (needed - acc.length) (t.w - t.r))).drop t.r),
                r := t.r + min (needed - acc.length) (t.w - t.r) },
             acc ++ (t.buf.take
                (t.r + min (needed - acc.length) (t.w - t.r))).drop t.r)
           else (t, acc)).2 readErr
      else readFinish t acc readErr := rfl

theorem readFinish_markers (t : TextReader) (acc : List Nat) (re : Option Err) :
    (readFinish t acc re).1.lastRuneSize = -1 ∧
    (0 < (readFinish t acc re).1.r → 0 ≤ (readFinish t acc re).1.lastByte) := by
  unfold readFinish
  by_cases h : acc.length = 0 ∧ re.isSome
  · rw [if_pos h]
    refine ⟨rfl, ?_⟩
    intro hr
    show 0 ≤ if 0 < t.r then ((t.buf.getD (t.r - 1) 0 : Nat) : Int) else -1
    rw [if_pos hr]
    exact Int.natCast_nonneg _
  · rw [if_neg h]
    refine ⟨rfl, ?_⟩
    intro hr
    show 0 ≤ if 0 < t.r then ((t.buf.getD (t.r - 1) 0 : Nat) : Int) else -1
    rw [if_pos hr]
    exact Int.natCast_nonneg _

theorem readLoop_markers : ∀ (fuel needed : Nat) (t : TextReader) (acc : List Nat)
    (re : Option Err),
    (readLoopF fuel needed t acc re).1.lastRuneSize = -1 ∧
    (0 < (readLoopF fuel needed t acc re).1.r →
      0 ≤ (readLoopF fuel needed t acc re).1.lastByte) := by
  intro fuel
  induction fuel with
  | zero =>
    intro needed t acc re
    exact readFinish_markers t acc re
  | succ fuel ih =>
    intro needed t acc re
    rw [readLoopF_succ]
    by_cases hA : acc.length < needed
    · rw [if_pos hA]
      generalize (if 0 < t.w - t.r then _ else (t, acc)) = dr
      obtain ⟨t1, acc1⟩ := dr
      show (readLoopTail fuel needed t1 acc1 re).1.lastRuneSize = -1 ∧ _
      unfold readLoopTail
      by_cases h1 : re.isSome
      · rw [if_pos h1]
        exact readFinish_markers t1 acc1 re
      rw [if_neg h1]
      by_cases h2 : needed ≤ acc1.length
      · rw [if_pos h2]
        exact readFinish_markers t1 acc1 re
      rw [if_neg h2]
      by_cases h3 : t1.capacity < needed - acc1.length
      · rw [if_pos h3]
        rcases hsrc : t1.src with _ | ⟨b, srest⟩
        · exact readFinish_markers _ acc1 (some .eof)
        · exact readFinish_markers _ _ none
      · rw [if_neg h3]
        exact ih needed _ acc1 _
    · rw [if_neg hA]
      exact readFinish_markers t acc re

/-- C9 (amended): after every bulk `Read`, `UnreadRune` fails with
`ErrInvalidUnreadRune` (the rune marker is always cleared); `UnreadByte`
is invalid whenever the read cursor sits at the start of the buffer —
which is precisely the situation after a direct-read bypass, even though
bytes were produced — and when the cursor is inside the buffer,
`UnreadByte` undoes exactly one byte: the cursor and the offset both
move back by one. -/
theorem read_undo (t : TextReader) (needed : Nat) :
    ((t.Read needed).1.UnreadRune
      = ((t.Read needed).1, some .invalidUnreadRune)) ∧
    ((t.Read needed).1.r = 0 →
      (t.Read needed).1.UnreadByte
        = ((t.Read needed).1, some .invalidUnreadByte)) ∧
    (0 < (t.Read needed).1.r → PosWF (t.Read needed).1.pos →
      1 ≤ (t.Read needed).1.pos.offset →
      ∃ t', (t.Read needed).1.UnreadByte = (t', none) ∧
        t'.r = (t.Read needed).1.r - 1 ∧
        t'.pos.offset = (t.Read needed).1.pos.offset - 1) := by
  obtain ⟨hm1, hm2⟩ :=
    readLoop_markers (2 * t.src.length + 4) needed t [] none
  refine ⟨?_, ?_, ?_⟩
  · have hlrs : (t.Read needed).1.lastRuneSize = -1 := hm1
    unfold TextReader.UnreadRune
    rw [if_pos (Or.inl (by rw [hlrs]; norm_num))]
  · intro hr0
    unfold TextReader.UnreadByte
    rw [if_pos (Or.inr hr0)]
  · intro hr hp hoff
    have hlb : 0 ≤ (t.Read needed).1.lastByte := hm2 hr
    obtain ⟨p', hok, hpoff⟩ := rewind_one (t.Read needed).1.pos hp hoff
    refine ⟨{ (t.Read needed).1 with
                pos := p',
                r := (t.Read needed).1.r - 1,
                lastByte := -1,
                lastRuneSize := -1 }, ?_, rfl, hpoff⟩
    unfold TextReader.UnreadByte
    rw [if_neg (by push_neg; exact ⟨hlb, by omega⟩), hok]

/-- The reader state used in the C9 counterexample: capacity 4 and a
six-byte source, after `Read 6` — a request larger than the buffer, so
the direct-read bypass produced all six bytes and reset the buffer. -/
def c9reader : TextReader :=
  ((TextReader.NewWithCapacity [97, 98, 99, 100, 101, 102] 4).Read 6).1

/-- C9 counterexample: the bypass `Read` produced six bytes, yet
`UnreadByte` fails with `ErrInvalidUnreadByte` — the bypass reset the
cursor to the buffer start, so the single final byte produced can NOT be
undone, contradicting the claim that `UnreadByte` stays valid for the
final byte of a bypass read. -/
theorem read_bypass_unreadByte_invalid :
    ((TextReader.NewWithCapacity [97, 98, 99, 100, 101, 102] 4).Read 6).2.1
      = [97, 98, 99, 100, 101, 102] ∧
    c9reader.r = 0 ∧
    c9reader.UnreadByte = (c9reader, some .invalidUnreadByte) ∧
    c9reader.UnreadRune = (c9reader, some .invalidUnreadRune) := by decide

theorem read_undo_witness :
    (0 < ((TextReader.NewWithCapacity [110, 111, 112] 4).Read 2).1.r) ∧
    PosWF ((TextReader.NewWithCapacity [110, 111, 112] 4).Read 2).1.pos ∧
    (1 ≤ ((TextReader.NewWithCapacity [110, 111, 112] 4).Read 2).1.pos.offset) ∧
    (∃ t', ((TextReader.NewWithCapacity [110, 111, 112] 4).Read 2).1.UnreadByte
        = (t', none) ∧
      t'.r = ((TextReader.NewWithCapacity [110, 111, 112] 4).Read 2).1.r - 1 ∧
      t'.pos.offset
        = ((TextReader.NewWithCapacity [110, 111, 112] 4).Read 2).1.pos.offset - 1) :=
  ⟨by decide, by decide, by decide,
   (read_undo (TextReader.NewWithCapacity [110, 111, 112] 4) 2).2.2
     (by decide) (by decide) (by decide)⟩
